import Mathlib

/-!
# sprm: removing spaces from file names

A shallow embedding of `sprm.go` (versions 0.0.1 and 0.0.3) and of the parts of the Go
standard library it calls (`path`, `strings`, `bufio`, `os`, `io`).

Conventions of the embedding.

* A Go string is a sequence of bytes. The path computation of `sprm` is modelled on
  strings of Unicode code points (`GoString`), that is, on valid UTF-8; the steps of that
  computation split and join at the ASCII bytes `/`, `.` and the space. `rmChr` and the
  stem computation are also modelled on arbitrary byte strings (namespace `Raw`), with the
  decoding of `range` and the encoding of `string(v)`, and the two models are proved to
  agree on valid UTF-8.
* The file system and the console are explicit: a function takes the state of the world
  and returns its results together with the new state. A file is identified by the
  spelling of its path: the theorems use one spelling for each file.
* A Go `error` value is `Option GoError`, `none` being `nil`.
* Text written to standard output is not part of the modelled state.
-/

namespace Sprm

/-- A Go string that is valid UTF-8: the sequence of its code points. Byte strings that
need not be valid UTF-8 are `List Byte`, see the namespace `Raw`. -/
abbrev GoString := List Char

/-! ## Package `strings` -/

namespace strings

/-- Go `strings.ContainsAny`: whether some code point of `chars` occurs in `s`. -/
def ContainsAny (s chars : GoString) : Bool :=
  s.any (fun c => chars.contains c)

/-- Go `strings.HasSuffix`. -/
def HasSuffix (s suffix : GoString) : Bool :=
  suffix.isSuffixOf s

/-- Go `strings.TrimSuffix`: `s` without the trailing `suffix`, or `s` itself when it does
not end with `suffix`. -/
def TrimSuffix (s suffix : GoString) : GoString :=
  if HasSuffix s suffix then s.take (s.length - suffix.length) else s

/-- The scan of `strings.Replace` for a non-empty `old`: the first argument counts the code
points of a match that are still to be skipped; at 0 the scan looks for `old` at the current
position, emits `new` for a match and skips the rest of it, and otherwise keeps the code
point. Matches are found left to right and do not overlap. -/
def replaceFrom (old new : GoString) : Nat → GoString → GoString
  | _, [] => []
  | k + 1, _ :: cs => replaceFrom old new k cs
  | 0, c :: cs =>
    if old.isPrefixOf (c :: cs) then new ++ replaceFrom old new (old.length - 1) cs
    else c :: replaceFrom old new 0 cs

/-- Go `strings.ReplaceAll`. An empty `old` matches at the beginning of the string and after
each code point. -/
def ReplaceAll (s old new : GoString) : GoString :=
  if old = [] then new ++ (s.map (fun c => c :: new)).flatten
  else replaceFrom old new 0 s

/-- Go `unicode.ToUpper` on the ASCII letters; the other code points are left as they are
(no code point other than `y` and `Y` has the upper case `Y`, the only upper case letter
the program looks for). -/
def toUpperRune (c : Char) : Char :=
  if 'a' ≤ c ∧ c ≤ 'z' then Char.ofNat (c.toNat - 32) else c

/-- Go `strings.ToUpper`. -/
def ToUpper (s : GoString) : GoString :=
  s.map toUpperRune

end strings

/-! ## Package `path` -/

namespace path

/-- Go `bytealg.LastIndexByteString` restricted to the indices below `n`: the loop
`for i := n - 1; i >= 0; i--` returning the first `i` with `s[i] == c`, and -1 when there
is none. -/
def lastIndexByteBelow (s : GoString) (c : Char) : Nat → Int
  | 0 => -1
  | i + 1 => if s.get? i = some c then (i : Int) else lastIndexByteBelow s c i

/-- Go `bytealg.LastIndexByteString`. -/
def LastIndexByteString (s : GoString) (c : Char) : Int :=
  lastIndexByteBelow s c s.length

/-- Go `path.Split`: `path[:i+1], path[i+1:]` for `i` the index of the last slash. -/
def Split (p : GoString) : GoString × GoString :=
  let i := LastIndexByteString p '/'
  (p.take (i + 1).toNat, p.drop (i + 1).toNat)

/-- The loop of Go `path.Ext` over the indices below `n`:
`for i := n - 1; i >= 0 && path[i] != '/'; i--` returning `path[i:]` at the first dot. -/
def extBelow (p : GoString) : Nat → GoString
  | 0 => []
  | i + 1 =>
    if p.get? i = some '/' then []
    else if p.get? i = some '.' then p.drop i
    else extBelow p i

/-- Go `path.Ext`: the suffix beginning at the final dot of the final element of the path,
empty when there is no dot. -/
def Ext (p : GoString) : GoString :=
  extBelow p p.length

/-- The test `c != '/'` of the loops of Go `path.Clean`. -/
def notSlash (c : Char) : Bool :=
  c ≠ '/'

/-- The inner loop of the `..` case of Go `path.Clean`, on the write index `w` of the
buffer `buf`: `for out.w > dotdot && out.index(out.w) != '/' { out.w-- }`. -/
def backtrack (buf : GoString) (dotdot : Nat) : Nat → Nat
  | 0 => 0
  | w + 1 => if w + 1 > dotdot ∧ buf.get? (w + 1) ≠ some '/' then backtrack buf dotdot w else w + 1

/-- The `..` case of Go `path.Clean` when it can backtrack: `out.w--` followed by the inner
loop; the buffer keeps the bytes below the new write index. -/
def backtrackOut (out : GoString) (dotdot : Nat) : GoString :=
  out.take (backtrack out dotdot (out.length - 1))

/-- The main loop of Go `path.Clean`. `rest` is `path[r:]`, `out` the bytes written so far
(`out.w` is its length) and `dotdot` the index where `..` must stop. Each iteration
consumes at least one byte of `rest`, so `rest.length` iterations are enough; the first
argument bounds the number of iterations. -/
def cleanLoop (rooted : Bool) : Nat → GoString → GoString → Nat → GoString
  | 0, _, out, _ => out
  | _ + 1, [], out, _ => out
  | fuel + 1, c :: t, out, dotdot =>
    if c = '/' then
      -- empty path element
      cleanLoop rooted fuel t out dotdot
    else if c = '.' ∧ (t = [] ∨ t.head? = some '/') then
      -- . element
      cleanLoop rooted fuel t out dotdot
    else if c = '.' ∧ t.head? = some '.' ∧ (t.tail = [] ∨ t.tail.head? = some '/') then
      -- .. element: remove to last /
      if out.length > dotdot then
        cleanLoop rooted fuel t.tail (backtrackOut out dotdot) dotdot
      else if !rooted then
        let out1 := if out.length > 0 then out ++ ['/'] else out
        let out2 := out1 ++ ['.', '.']
        cleanLoop rooted fuel t.tail out2 out2.length
      else
        cleanLoop rooted fuel t.tail out dotdot
    else
      -- real path element: add slash if needed, copy element
      let out1 :=
        if (rooted ∧ out.length ≠ 1) ∨ (!rooted ∧ out.length ≠ 0) then out ++ ['/'] else out
      cleanLoop rooted fuel ((c :: t).dropWhile notSlash)
        (out1 ++ (c :: t).takeWhile notSlash) dotdot

/-- Go `path.Clean`: the shortest path name equivalent to `p` by purely lexical
processing. -/
def Clean (p : GoString) : GoString :=
  if p = [] then ['.']
  else
    let rooted := p.head? = some '/'
    let out :=
      if rooted then cleanLoop true p.length p.tail ['/'] 1
      else cleanLoop false p.length p [] 0
    if out.length = 0 then ['.'] else out

/-- The buffer that Go `path.Join` builds before cleaning: the non-empty elements
separated by slashes. -/
def joinBuf (elem : List GoString) : GoString :=
  elem.foldl
    (fun buf e =>
      if buf.length > 0 ∨ e ≠ [] then (if buf.length > 0 then buf ++ ['/'] else buf) ++ e
      else buf)
    []

/-- Go `path.Join`: joins the elements with slashes, ignoring empty elements, and cleans
the result; empty when all elements are empty. -/
def Join (elem : List GoString) : GoString :=
  let size := (elem.map List.length).sum
  if size = 0 then [] else Clean (joinBuf elem)

end path

/-! ## The file name computation of `sprm` -/

/-- Go `rmChr` on valid UTF-8: for every rune `v` of `rm`, in order,
`s = strings.ReplaceAll(s, string(v), "")`. On arbitrary byte strings the function is
`Raw.rmChr`; `Raw_rmChr_utf8` relates the two. -/
def rmChr (s rm : GoString) : GoString :=
  rm.foldl (fun s v => strings.ReplaceAll s [v] []) s

/-- The extension that `sprm` saves: `path.Ext(fn)` when `fn` contains a dot, and the
empty string (the zero value of `ext`) otherwise. -/
def sprmExt (fn : GoString) : GoString :=
  if strings.ContainsAny fn ['.'] then path.Ext fn else []

/-- The file name that `sprm` modifies: `fn` without its extension. -/
def sprmStem (fn : GoString) : GoString :=
  if strings.ContainsAny fn ['.'] then strings.TrimSuffix fn (path.Ext fn) else fn

/-- The modification of the file name by `sprm` (0.0.3): the characters of `strip` are
removed when `strip` is not empty, then the spaces are replaced by `replace`. -/
def sprmNewStem (filename replace strip : GoString) : GoString :=
  let filename := if strip ≠ [] then rmChr filename strip else filename
  strings.ReplaceAll filename [' '] replace

/-- The new base name of `sprm`: the modified file name with the extension added back. -/
def sprmNewName (fn replace strip : GoString) : GoString :=
  sprmNewStem (sprmStem fn) replace strip ++ sprmExt fn

/-- The first part of `sprm` (0.0.3), up to `newpath := path.Join(dir, filename)`. -/
def sprmNewPath (opath replace strip : GoString) : GoString :=
  let (dir, fn) := path.Split opath
  path.Join [dir, sprmNewName fn replace strip]

/-- The file name computation of `sprm` 0.0.1, where the replacement of the spaces is
chosen by the global flags `dashG` and `underscoreG` and `strip` is the global `stripG`. -/
def V001.sprmNewStem (dashG underscoreG : Bool) (filename stripG : GoString) : GoString :=
  let filename := if stripG ≠ [] then rmChr filename stripG else filename
  if dashG then strings.ReplaceAll filename [' '] ['-']
  else if underscoreG then strings.ReplaceAll filename [' '] ['_']
  else strings.ReplaceAll filename [' '] []

/-- The first part of `sprm` 0.0.1, up to `newpath := path.Join(dir, filename)`. -/
def V001.sprmNewPath (dashG underscoreG : Bool) (originpath stripG : GoString) : GoString :=
  let (dir, fn) := path.Split originpath
  path.Join [dir, V001.sprmNewStem dashG underscoreG (sprmStem fn) stripG ++ sprmExt fn]

/-! ## The world: file system, standard input, errors -/

/-- A non-nil Go `error` of the calls the program makes. -/
inductive GoError where
  /-- The error `io.EOF`. -/
  | eof
  /-- The file does not exist. -/
  | notExist
  /-- The path names a directory where a file is needed. -/
  | isDirectory
  /-- Another error reported by the operating system, by its number. -/
  | errno (code : Nat)
  deriving DecidableEq, Repr

/-- The value a Go panic carries. -/
inductive PanicValue where
  /-- The call `panic(err)`. -/
  | error (err : GoError)
  /-- The run-time error of an index out of range. -/
  | indexOutOfRange
  deriving DecidableEq, Repr

/-- A byte of a file. -/
abbrev Byte := Fin 256

/-- What a path names in the file system. -/
inductive Node where
  /-- A regular file and its content. -/
  | regular (content : List Byte)
  /-- Something that is not a regular file: a directory, a device, a socket. -/
  | other
  deriving DecidableEq, Repr

/-- Go `FileMode.IsRegular` of the file information of a node. -/
def Node.IsRegular : Node → Bool
  | .regular _ => true
  | .other => false

/-- The state of the file system: what each path names, if anything. A file is identified
by the spelling of its path; two spellings of one file (`./a` and `a`, links) are not
modelled. -/
abbrev FS := GoString → Option Node

/-- The file system after `p` has been made to name `n` (or nothing). -/
def FS.set (fs : FS) (p : GoString) (n : Option Node) : FS :=
  fun q => if q = p then n else fs q

/-- The failures of the operating system that do not follow from the modelled file system
state (permissions, input and output errors, a full disk): for each call, the error it
reports, if any. -/
structure Env where
  /-- The failure of `os.Stat` on a path. -/
  statErr : GoString → Option GoError
  /-- The failure of `os.Open` on a path. -/
  openErr : GoString → Option GoError
  /-- The failure of `os.Create` on a path. -/
  createErr : GoString → Option GoError
  /-- The failure of `io.Copy` between two paths: the number of bytes after which the copy
  stops, and the error. -/
  copyErr : GoString → GoString → Option (Nat × GoError)
  /-- The failure of `Close` on the file created at a path, such as a delayed write error. -/
  closeErr : GoString → Option GoError
  /-- The failure of `os.Rename` between two paths. -/
  renameErr : GoString → GoString → Option GoError

/-- The environment in which no call fails for an outside reason. -/
def Env.noFaults : Env where
  statErr := fun _ => none
  openErr := fun _ => none
  createErr := fun _ => none
  copyErr := fun _ _ => none
  closeErr := fun _ => none
  renameErr := fun _ _ => none

/-- Standard input: the bytes still to be read, and the error that a read reports once
they are exhausted (`io.EOF` at the end of the input, another error when standard input is
closed or unreadable). -/
structure Stdin where
  /-- The text still to be read. -/
  data : GoString
  /-- The error of a read at the end of the text. -/
  atEnd : GoError

namespace os

/-- Go `os.Stat`: the file information of the node a path names, or an error. -/
def Stat (env : Env) (fs : FS) (name : GoString) : Option Node × Option GoError :=
  match env.statErr name with
  | some e => (none, some e)
  | none =>
    match fs name with
    | none => (none, some GoError.notExist)
    | some n => (some n, none)

/-- Go `os.Open`: opens the named file for reading; the result is the error. -/
def Open (env : Env) (fs : FS) (name : GoString) : Option GoError :=
  match env.openErr name with
  | some e => some e
  | none =>
    match fs name with
    | none => some GoError.notExist
    | some _ => none

/-- Go `os.Create`: creates or truncates the named file. The results are the file system
after the call and the error. -/
def Create (env : Env) (fs : FS) (name : GoString) : FS × Option GoError :=
  match env.createErr name with
  | some e => (fs, some e)
  | none =>
    match fs name with
    | some Node.other => (fs, some GoError.isDirectory)
    | _ => (fs.set name (some (Node.regular [])), none)

/-- Go `os.Rename`: renames (moves) `oldpath` to `newpath`, replacing `newpath`. The
results are the file system after the call and the error. -/
def Rename (env : Env) (fs : FS) (oldpath newpath : GoString) : FS × Option GoError :=
  match env.renameErr oldpath newpath with
  | some e => (fs, some e)
  | none =>
    match fs oldpath with
    | none => (fs, some GoError.notExist)
    | some n => if oldpath = newpath then (fs, none) else ((fs.set newpath (some n)).set oldpath none, none)

end os

namespace io

/-- Go `io.Copy(out, in)` for `in` the file open at `src` and `out` the file created at
`dst`: the bytes that `src` holds when the copy runs are appended to `dst` until the end of
`src` or an error. The results are the number of bytes copied, the error and the file
system after the call. -/
def Copy (env : Env) (fs : FS) (dst src : GoString) : Nat × Option GoError × FS :=
  let content :=
    match fs src with
    | some (Node.regular c) => c
    | _ => []
  let written :=
    match env.copyErr src dst with
    | some (k, _) => content.take k
    | none => content
  let err := (env.copyErr src dst).map Prod.snd
  let old :=
    match fs dst with
    | some (Node.regular c) => c
    | _ => []
  (written.length, err, fs.set dst (some (Node.regular (old ++ written))))

end io

namespace bufio

/-- Go `(*bufio.Reader).ReadString` on standard input: the text up to and including the
first `delim`; when the input ends before a `delim`, the text read so far and the error. -/
def ReadString (stdin : Stdin) (delim : Char) : GoString × Option GoError :=
  match stdin.data.dropWhile (fun c => c ≠ delim) with
  | [] => (stdin.data, some stdin.atEnd)
  | d :: _ => (stdin.data.takeWhile (fun c => c ≠ delim) ++ [d], none)

end bufio

/-! ## The functions of `sprm.go` -/

/-- Go `cpfile` -- copy file `src` to `dst`. The results are `(n, err)` and the file system
after the call. The results are unnamed, so the statement `return n, err` fixes them before
the deferred function runs: the deferred assignment `err = cerr` changes the local
variable only. -/
def cpfile (env : Env) (fs : FS) (src dst : GoString) : (Nat × Option GoError) × FS :=
  let (srcstat, err) := os.Stat env fs src
  if err ≠ none then ((0, err), fs)
  else if !(match srcstat with | some n => n.IsRegular | none => false) then ((0, err), fs)
  else
    let err := os.Open env fs src
    if err ≠ none then ((0, err), fs)
    else
      let (fs1, err) := os.Create env fs dst
      if err ≠ none then ((0, err), fs1)
      else
        let (n, err, fs2) := io.Copy env fs1 dst src
        let results := (n, err)
        -- the deferred function: cerr := out.Close(); if err == nil { err = cerr }
        let cerr := env.closeErr dst
        let _err := if err = none then cerr else err
        (results, fs2)

/-- Go `yesno` (0.0.3): reads a line and answers whether it begins with `y` or `Y`. The
result is the answer, or the value of the panic. The prompt is printed, which the model
does not record. -/
def yesno (stdin : Stdin) (_prompt : GoString) : Except PanicValue Bool :=
  let (s, err) := bufio.ReadString stdin '\n'
  match err with
  | some e => Except.error (PanicValue.error e)
  | none =>
    let up := strings.ToUpper s
    match up.get? 0 with
    | none => Except.error PanicValue.indexOutOfRange
    | some c => if c = 'Y' then Except.ok true else Except.ok false

/-- Go `yesno` (0.0.1): the same reading inside a `for` loop whose first iteration always
returns or panics. -/
def V001.yesno (stdin : Stdin) (_prompt : GoString) : Except PanicValue Bool :=
  let (s, err) := bufio.ReadString stdin '\n'
  match err with
  | some e => Except.error (PanicValue.error e)
  | none =>
    let up := strings.ToUpper s
    match up.get? 0 with
    | none => Except.error PanicValue.indexOutOfRange
    | some c => if c = 'Y' then Except.ok true else Except.ok false

/-- How a call of `sprm` ends. -/
inductive Outcome where
  /-- The call returned the error value `err` (`none` for `nil`). -/
  | returned (err : Option GoError)
  /-- The call panicked. -/
  | panicked (v : PanicValue)
  deriving DecidableEq, Repr

/-- Go `sprm` (0.0.3): computes the new path and copies (`backup`) or renames the file,
after a confirmation when `ask` is set. The results are how the call ends and the file
system after it. The first part of the body, up to `newpath`, is `sprmNewPath`. -/
def sprm (env : Env) (fs : FS) (stdin : Stdin) (opath replace strip : GoString)
    (backup ask : Bool) : Outcome × FS :=
  let newpath := sprmNewPath opath replace strip
  if backup then
    -- before copy, get confirmation
    match (if ask then yesno stdin [] else Except.ok true) with
    | Except.error v => (Outcome.panicked v, fs)
    | Except.ok false => (Outcome.returned none, fs)
    | Except.ok true =>
      let ((_n, err), fs1) := cpfile env fs opath newpath
      if err ≠ none then (Outcome.returned err, fs1)
      else (Outcome.returned none, fs1)
  else
    -- before rename, get confirmation
    match (if ask then yesno stdin [] else Except.ok true) with
    | Except.error v => (Outcome.panicked v, fs)
    | Except.ok false => (Outcome.returned none, fs)
    | Except.ok true =>
      let (fs1, err) := os.Rename env fs opath newpath
      if err ≠ none then (Outcome.returned err, fs1)
      else (Outcome.returned err, fs1)

/-- The global flags of `sprm.go` 0.0.1 that `sprm` reads. -/
structure V001.Flags where
  /-- The flag `--backup`. -/
  backupG : Bool
  /-- The flag `--dash`. -/
  dashG : Bool
  /-- The flag `--underscore`. -/
  underscoreG : Bool
  /-- The flag `--interactive`. -/
  interactiveG : Bool
  /-- The flag `--strip`. -/
  stripG : GoString

/-- Go `sprm` (0.0.1), reading the global flags. The first part of the body, up to
`newpath`, is `V001.sprmNewPath`. -/
def V001.sprm (g : V001.Flags) (env : Env) (fs : FS) (stdin : Stdin) (originpath : GoString) :
    Outcome × FS :=
  let newpath := V001.sprmNewPath g.dashG g.underscoreG originpath g.stripG
  if g.backupG then
    -- before copy, get confirmation
    match (if g.interactiveG then V001.yesno stdin [] else Except.ok true) with
    | Except.error v => (Outcome.panicked v, fs)
    | Except.ok false => (Outcome.returned none, fs)
    | Except.ok true =>
      let ((_n, err), fs1) := cpfile env fs originpath newpath
      if err ≠ none then (Outcome.returned err, fs1)
      else (Outcome.returned none, fs1)
  else
    -- before rename, get confirmation
    match (if g.interactiveG then V001.yesno stdin [] else Except.ok true) with
    | Except.error v => (Outcome.panicked v, fs)
    | Except.ok false => (Outcome.returned none, fs)
    | Except.ok true =>
      let (fs1, err) := os.Rename env fs originpath newpath
      if err ≠ none then (Outcome.returned err, fs1)
      else (Outcome.returned err, fs1)

/-- A file system given by a finite list of entries. -/
def FS.ofList (entries : List (GoString × Node)) : FS :=
  fun p => (entries.find? (fun e => e.1 = p)).map Prod.snd

/-! ## Strings as bytes

A Go string is a sequence of bytes that need not be valid UTF-8. The definitions of this
section are `rmChr` and the stem computation of `sprm` on byte strings, with the decoding
that `range` does and the encoding that `string(v)` does. On valid UTF-8 they agree with
the definitions on code points above. -/

namespace Raw

/-- The byte `byte(n)`: the low eight bits of `n`. -/
def toByte (n : Nat) : Byte :=
  ⟨n % 256, Nat.mod_lt n (by decide)⟩

/-- Go `utf8.RuneError`, the rune U+FFFD. -/
def RuneError : Nat :=
  0xFFFD

/-- Go `encoderune`, which `string(v)` runs on a rune `v`: the UTF-8 encoding of `r`, and
that of `RuneError` for a surrogate or a value above U+10FFFF. The bit operations are
written as arithmetic: `r >> 6` is `r / 64`, `r & maskx` is `r % 64`, and `t | x` is
`t + x` as the bits of `x` lie below those of the tag `t`. -/
def runeString (r : Nat) : List Byte :=
  if r ≤ 0x7F then [toByte r]
  else if r ≤ 0x7FF then [toByte (0xC0 + r / 64), toByte (0x80 + r % 64)]
  else if r > 0x10FFFF ∨ (0xD800 ≤ r ∧ r ≤ 0xDFFF) then [0xEF, 0xBF, 0xBD]
  else if r ≤ 0xFFFF then
    [toByte (0xE0 + r / 4096), toByte (0x80 + r / 64 % 64), toByte (0x80 + r % 64)]
  else
    [toByte (0xF0 + r / 262144), toByte (0x80 + r / 4096 % 64), toByte (0x80 + r / 64 % 64),
      toByte (0x80 + r % 64)]

/-- The entries of the table `first` of Go `unicode/utf8` for the leading bytes of
sequences of several bytes, with their `acceptRanges`: the size of the sequence and the
lowest and highest second byte accepted; `none` for the entry `xx` of an invalid leading
byte. -/
def leadInfo (s0 : Nat) : Option (Nat × Nat × Nat) :=
  if 0xC2 ≤ s0 ∧ s0 ≤ 0xDF then some (2, 0x80, 0xBF)
  else if s0 = 0xE0 then some (3, 0xA0, 0xBF)
  else if 0xE1 ≤ s0 ∧ s0 ≤ 0xEC then some (3, 0x80, 0xBF)
  else if s0 = 0xED then some (3, 0x80, 0x9F)
  else if 0xEE ≤ s0 ∧ s0 ≤ 0xEF then some (3, 0x80, 0xBF)
  else if s0 = 0xF0 then some (4, 0x90, 0xBF)
  else if 0xF1 ≤ s0 ∧ s0 ≤ 0xF3 then some (4, 0x80, 0xBF)
  else if s0 = 0xF4 then some (4, 0x80, 0x8F)
  else none

/-- Go `utf8.DecodeRuneInString`: the first rune of `s` and its width in bytes;
`(RuneError, 1)` when the encoding is invalid and `(RuneError, 0)` when `s` is empty. The
masks and shifts are written as arithmetic: `s0 & mask2` is `s0 % 32`, `<< 6` is `* 64`,
and `|` is `+` on fields that do not overlap. -/
def DecodeRuneInString (s : List Byte) : Nat × Nat :=
  match s with
  | [] => (RuneError, 0)
  | b0 :: t =>
    if b0.val < 0x80 then (b0.val, 1)
    else
      match leadInfo b0.val with
      | none => (RuneError, 1)
      | some (sz, lo, hi) =>
        if t.length + 1 < sz then (RuneError, 1)
        else
          let s1 := (t.getD 0 0).val
          if s1 < lo ∨ hi < s1 then (RuneError, 1)
          else if sz ≤ 2 then (b0.val % 32 * 64 + s1 % 64, 2)
          else
            let s2 := (t.getD 1 0).val
            if s2 < 0x80 ∨ 0xBF < s2 then (RuneError, 1)
            else if sz ≤ 3 then (b0.val % 16 * 4096 + s1 % 64 * 64 + s2 % 64, 3)
            else
              let s3 := (t.getD 2 0).val
              if s3 < 0x80 ∨ 0xBF < s3 then (RuneError, 1)
              else (b0.val % 8 * 262144 + s1 % 64 * 4096 + s2 % 64 * 64 + s3 % 64, 4)

/-- The runes `v` of the loop `for _, v := range s`: at each position the rune that
`DecodeRuneInString` gives (the decoder of the Go runtime that `range` calls yields the
same runes and widths: U+FFFD with width 1 for an invalid encoding), the position
advancing by its width. The first argument counts the bytes of the current rune that are
still to be passed. -/
def rangeFrom : Nat → List Byte → List Nat
  | _, [] => []
  | k + 1, _ :: t => rangeFrom k t
  | 0, b :: t =>
    (DecodeRuneInString (b :: t)).1 :: rangeFrom ((DecodeRuneInString (b :: t)).2 - 1) t

/-- The runes of `for _, v := range s`. -/
def rangeRunes (s : List Byte) : List Nat :=
  rangeFrom 0 s

/-- The scan of `strings.Replace` on bytes for a non-empty `old`; see
`strings.replaceFrom`. -/
def replaceFrom (old new : List Byte) : Nat → List Byte → List Byte
  | _, [] => []
  | k + 1, _ :: cs => replaceFrom old new k cs
  | 0, c :: cs =>
    if old.isPrefixOf (c :: cs) then new ++ replaceFrom old new (old.length - 1) cs
    else c :: replaceFrom old new 0 cs

/-- The scan of `strings.Replace` on bytes for an empty `old`, which matches after each
UTF-8 sequence: the bytes of `s` with `new` after each sequence, an invalid byte being a
sequence of its own. The first argument is 0 at the start of a sequence, and otherwise
the number of bytes of the current sequence that are still to be copied. -/
def insertFrom (new : List Byte) : Nat → List Byte → List Byte
  | _, [] => []
  | 0, b :: t =>
    if (DecodeRuneInString (b :: t)).2 ≤ 1 then b :: (new ++ insertFrom new 0 t)
    else b :: insertFrom new ((DecodeRuneInString (b :: t)).2 - 1) t
  | k + 1, b :: t =>
    if k = 0 then b :: (new ++ insertFrom new 0 t) else b :: insertFrom new k t

/-- Go `strings.ReplaceAll` on bytes. An empty `old` matches at the beginning of the
string and after each UTF-8 sequence. -/
def ReplaceAll (s old new : List Byte) : List Byte :=
  if old = [] then new ++ insertFrom new 0 s else replaceFrom old new 0 s

/-- Go `rmChr` on byte strings: for every rune `v` of `range rm`, in order,
`s = strings.ReplaceAll(s, string(v), "")`. -/
def rmChr (s rm : List Byte) : List Byte :=
  (rangeRunes rm).foldl (fun s v => ReplaceAll s (runeString v) []) s

/-- The modification of the file name by `sprm` (0.0.3) on byte strings: the characters
of `strip` are removed when `strip` is not empty, then the spaces are replaced by
`replace`. -/
def sprmNewStem (filename replace strip : List Byte) : List Byte :=
  let filename := if strip ≠ [] then rmChr filename strip else filename
  ReplaceAll filename [0x20] replace

/-- The UTF-8 encoding of a string of code points. -/
def utf8 (s : GoString) : List Byte :=
  (s.map (fun c => runeString c.toNat)).flatten

end Raw

/-- A continuation byte of UTF-8: `10xxxxxx`. -/
def IsCont (b : Byte) : Prop :=
  0x80 ≤ b.val ∧ b.val < 0xC0

/-! ## What the specification says about the file name -/

/-- The deletion of step 3 of the name transformer: every occurrence of every character of
`stripChars` is removed, the other characters keep their order. -/
def specStrip (stem stripChars : GoString) : GoString :=
  stem.filter (fun c => !stripChars.contains c)

/-- The replacement of step 4 of the name transformer: every space becomes
`spaceReplacement`. -/
def specReplaceSpaces (stem spaceReplacement : GoString) : GoString :=
  (stem.map (fun c => if c = ' ' then spaceReplacement else [c])).flatten

/-! ## The loop of `path.Clean`, element by element

Definitions for the proofs about `path.Clean`: the elements of a path, the effect of the
loop on one element, and the states the loop can be in. -/

/-- The elements of a path: the pieces between its slashes. -/
def splitSlash : GoString → List GoString
  | [] => [[]]
  | c :: t =>
    if c = '/' then [] :: splitSlash t
    else
      match splitSlash t with
      | [] => [[c]]
      | e :: es => (c :: e) :: es

/-- The state `(out, dotdot)` in which the loop of `path.Clean` starts. -/
def initState (rooted : Bool) : GoString × Nat :=
  if rooted then (['/'], 1) else ([], 0)

/-- The part of the path that the loop of `path.Clean` reads: all of it, without the
leading slash of a rooted path. -/
def stripRoot (rooted : Bool) (p : GoString) : GoString :=
  if rooted then p.tail else p

/-- The buffer after the slash that `path.Clean` adds, if needed, before a real
element. -/
def pushSep (rooted : Bool) (out : GoString) : GoString :=
  if (rooted ∧ out.length ≠ 1) ∨ (!rooted ∧ out.length ≠ 0) then out ++ ['/'] else out

/-- What one iteration group of the loop of `path.Clean` does with the element `e`. -/
def cleanStep (rooted : Bool) (st : GoString × Nat) (e : GoString) : GoString × Nat :=
  if e = [] ∨ e = ['.'] then st
  else if e = ['.', '.'] then
    if st.1.length > st.2 then (path.backtrackOut st.1 st.2, st.2)
    else if !rooted then
      ((if st.1.length > 0 then st.1 ++ ['/'] else st.1) ++ ['.', '.'],
       ((if st.1.length > 0 then st.1 ++ ['/'] else st.1) ++ ['.', '.']).length)
    else st
  else (pushSep rooted st.1 ++ e, st.2)

/-- The loop of `path.Clean`, element by element. -/
def cleanRun (rooted : Bool) (st : GoString × Nat) (s : GoString) : GoString × Nat :=
  (splitSlash s).foldl (cleanStep rooted) st

/-- A real element of a path: not empty, not `.`, not `..`, without a slash. -/
def IsReal (e : GoString) : Prop :=
  '/' ∉ e ∧ e ≠ [] ∧ e ≠ ['.'] ∧ e ≠ ['.', '.']

instance IsReal.decidable (e : GoString) : Decidable (IsReal e) := by
  unfold IsReal; infer_instance

/-- The result of `path.Clean` for the buffer the loop leaves. -/
def finish (out : GoString) : GoString :=
  if out.length = 0 then ['.'] else out

/-- The states `(out, dotdot)` that the loop of `path.Clean` can be in: the starting
state, a state after `..` has been appended to a buffer that cannot be backtracked, and a
state after a real element has been appended. -/
inductive Reach (rooted : Bool) : GoString → Nat → Prop
  | init (out : GoString) (dd : Nat) :
      (out, dd) = initState rooted → Reach rooted out dd
  | dotdot (out : GoString) (dd : Nat) (out2 : GoString) (dd2 : Nat) :
      rooted = false → Reach rooted out dd → out.length = dd →
      out2 = (if out.length > 0 then out ++ ['/'] else out) ++ ['.', '.'] →
      dd2 = out2.length → Reach rooted out2 dd2
  | real (out : GoString) (dd : Nat) (e out2 : GoString) :
      Reach rooted out dd → IsReal e → out2 = pushSep rooted out ++ e → Reach rooted out2 dd

/-- Whether a path is rooted: whether it begins with a slash. -/
def rootedOf (p : GoString) : Bool :=
  decide (p.head? = some '/')

/-- A path that is empty or ends with a slash: a directory part. -/
def EndsSlash (p : GoString) : Prop :=
  p = [] ∨ ∃ q, p = q ++ ['/']

/-! ## Example worlds -/

/-- The environment in which closing the file created at `myfile.txt` fails. -/
def closeFailsEnv : Env :=
  { Env.noFaults with
    closeErr := fun p => if p = "myfile.txt".toList then some (GoError.errno 5) else none }

/-! # Theorems -/

/-! ## Replacing and removing characters -/

theorem replaceFrom_single (v : Char) (new s : GoString) :
    strings.replaceFrom [v] new 0 s = (s.map (fun c => if c = v then new else [c])).flatten := by
  induction s with
  | nil => simp [strings.replaceFrom]
  | cons c cs ih =>
    by_cases h : c = v
    · subst h
      simp [strings.replaceFrom, List.isPrefixOf, ih]
    · have h2 : ¬ v = c := fun e => h e.symm
      simp [strings.replaceFrom, List.isPrefixOf, ih, h, h2]

theorem ReplaceAll_single (v : Char) (new s : GoString) :
    strings.ReplaceAll s [v] new = (s.map (fun c => if c = v then new else [c])).flatten := by
  simp [strings.ReplaceAll, replaceFrom_single]

theorem ReplaceAll_single_nil (v : Char) (s : GoString) :
    strings.ReplaceAll s [v] [] = s.filter (fun c => !(c == v)) := by
  rw [ReplaceAll_single]
  induction s with
  | nil => simp
  | cons c cs ih =>
    by_cases h : c = v
    · simp [h, ih]
    · simp [h, ih]

theorem rmChr_eq_filter (s rm : GoString) :
    rmChr s rm = s.filter (fun c => !rm.contains c) := by
  unfold rmChr
  induction rm generalizing s with
  | nil => simp
  | cons v vs ih =>
    rw [List.foldl_cons, ih, ReplaceAll_single_nil, List.filter_filter]
    congr 1
    funext c
    by_cases h : c = v
    · simp [h]
    · simp [h, Bool.and_comm]

theorem ReplaceAll_space (s replace : GoString) :
    strings.ReplaceAll s [' '] replace = specReplaceSpaces s replace := by
  rw [ReplaceAll_single]; rfl

theorem sprmNewStem_eq (stem replace strip : GoString) :
    sprmNewStem stem replace strip = specReplaceSpaces (specStrip stem strip) replace := by
  unfold sprmNewStem
  by_cases h : strip = []
  · subst h
    simp [ReplaceAll_space, specStrip]
  · simp only [h, ne_eq, not_false_eq_true, if_true, ReplaceAll_space, rmChr_eq_filter]
    rfl

theorem specReplaceSpaces_of_no_space (s replace : GoString) (h : ' ' ∉ s) :
    specReplaceSpaces s replace = s := by
  unfold specReplaceSpaces
  induction s with
  | nil => rfl
  | cons c cs ih =>
    have hc : c ≠ ' ' := fun e => h (by simp [e])
    have hcs : ' ' ∉ cs := fun e => h (by simp [e])
    simp only [List.map_cons, List.flatten_cons, hc, if_false, List.singleton_append]
    rw [ih hcs]

theorem specStrip_no_space (stem strip : GoString) (h : ' ' ∈ strip) :
    ' ' ∉ specStrip stem strip := by
  unfold specStrip
  intro hm
  have := (List.mem_filter.mp hm).2
  simp [h] at this

theorem toUpperRune_eq_Y (c : Char) : strings.toUpperRune c = 'Y' ↔ (c = 'y' ∨ c = 'Y') := by
  unfold strings.toUpperRune
  by_cases h : 'a' ≤ c ∧ c ≤ 'z'
  · rw [if_pos h]
    obtain ⟨h1, h2⟩ := h
    have h1n : 97 ≤ c.toNat := h1
    have h2n : c.toNat ≤ 122 := h2
    have hc : c = Char.ofNat c.toNat := (Char.ofNat_toNat c).symm
    generalize c.toNat = n at hc h1n h2n ⊢
    subst hc
    interval_cases n <;> decide
  · rw [if_neg h]
    constructor
    · intro e; exact Or.inr e
    · rintro (e | e)
      · exact absurd (by subst e; decide) h
      · exact e

/-! ## Valid UTF-8 -/

theorem toByte_val (n : Nat) : (Raw.toByte n).val = n % 256 := rfl

theorem Char_toNat_valid (c : Char) :
    c.toNat < 0xD800 ∨ (0xDFFF < c.toNat ∧ c.toNat < 0x110000) :=
  c.valid

theorem leadInfo_two (n : Nat) (h1 : 0x80 ≤ n) (h2 : n ≤ 0x7FF) :
    Raw.leadInfo (0xC0 + n / 64) = some (2, 0x80, 0xBF) := by
  unfold Raw.leadInfo
  rw [if_pos ⟨by omega, by omega⟩]

theorem leadInfo_three (n : Nat) (h1 : 0x800 ≤ n) (h2 : n ≤ 0xFFFF)
    (hs : ¬ (0xD800 ≤ n ∧ n ≤ 0xDFFF)) :
    ∃ lo hi, Raw.leadInfo (0xE0 + n / 4096) = some (3, lo, hi) ∧
      lo ≤ 0x80 + n / 64 % 64 ∧ 0x80 + n / 64 % 64 ≤ hi := by
  unfold Raw.leadInfo
  by_cases c0 : n / 4096 = 0
  · refine ⟨0xA0, 0xBF, ?_, by omega, by omega⟩
    rw [if_neg (by omega), if_pos (by omega)]
  · by_cases c1 : n / 4096 ≤ 12
    · refine ⟨0x80, 0xBF, ?_, by omega, by omega⟩
      rw [if_neg (by omega), if_neg (by omega), if_pos ⟨by omega, by omega⟩]
    · by_cases c2 : n / 4096 = 13
      · refine ⟨0x80, 0x9F, ?_, by omega, by omega⟩
        rw [if_neg (by omega), if_neg (by omega), if_neg (by omega), if_pos (by omega)]
      · refine ⟨0x80, 0xBF, ?_, by omega, by omega⟩
        rw [if_neg (by omega), if_neg (by omega), if_neg (by omega), if_neg (by omega),
          if_pos ⟨by omega, by omega⟩]

theorem leadInfo_four (n : Nat) (h1 : 0x10000 ≤ n) (h2 : n ≤ 0x10FFFF) :
    ∃ lo hi, Raw.leadInfo (0xF0 + n / 262144) = some (4, lo, hi) ∧
      lo ≤ 0x80 + n / 4096 % 64 ∧ 0x80 + n / 4096 % 64 ≤ hi := by
  unfold Raw.leadInfo
  by_cases c0 : n / 262144 = 0
  · refine ⟨0x90, 0xBF, ?_, by omega, by omega⟩
    rw [if_neg (by omega), if_neg (by omega), if_neg (by omega), if_neg (by omega),
      if_neg (by omega), if_pos (by omega)]
  · by_cases c1 : n / 262144 ≤ 3
    · refine ⟨0x80, 0xBF, ?_, by omega, by omega⟩
      rw [if_neg (by omega), if_neg (by omega), if_neg (by omega), if_neg (by omega),
        if_neg (by omega), if_neg (by omega), if_pos ⟨by omega, by omega⟩]
    · refine ⟨0x80, 0x8F, ?_, by omega, by omega⟩
      rw [if_neg (by omega), if_neg (by omega), if_neg (by omega), if_neg (by omega),
        if_neg (by omega), if_neg (by omega), if_neg (by omega), if_pos (by omega)]

/-- Decoding undoes encoding: at the front of a byte string, the encoding of a valid code
point decodes to that code point, with the width of the encoding. -/
theorem Decode_runeString (n : Nat) (hv : n < 0xD800 ∨ (0xDFFF < n ∧ n < 0x110000))
    (r : List Byte) :
    Raw.DecodeRuneInString (Raw.runeString n ++ r) = (n, (Raw.runeString n).length) := by
  unfold Raw.runeString
  by_cases h1 : n ≤ 0x7F
  · rw [if_pos h1]
    simp only [List.singleton_append, Raw.DecodeRuneInString, toByte_val, List.length_singleton]
    rw [if_pos (by omega)]
    congr 1
    omega
  · rw [if_neg h1]
    by_cases h2 : n ≤ 0x7FF
    · rw [if_pos h2]
      simp only [List.cons_append, List.nil_append, Raw.DecodeRuneInString, toByte_val,
        List.length_cons, List.length_nil, List.getD_cons_zero]
      have e0 : (0xC0 + n / 64) % 256 = 0xC0 + n / 64 := by omega
      rw [e0, if_neg (by omega), leadInfo_two n (by omega) h2]
      simp only
      rw [if_neg (by omega), if_neg (by omega), if_pos (by omega)]
      congr 1
      omega
    · rw [if_neg h2]
      have hsur : ¬ (n > 0x10FFFF ∨ (0xD800 ≤ n ∧ n ≤ 0xDFFF)) := by omega
      rw [if_neg hsur]
      by_cases h3 : n ≤ 0xFFFF
      · rw [if_pos h3]
        obtain ⟨lo, hi, hl, hlo, hhi⟩ := leadInfo_three n (by omega) h3 (by omega)
        simp only [List.cons_append, List.nil_append, Raw.DecodeRuneInString, toByte_val,
          List.length_cons, List.length_nil, List.getD_cons_zero, List.getD_cons_succ]
        have e0 : (0xE0 + n / 4096) % 256 = 0xE0 + n / 4096 := by omega
        have e1 : (0x80 + n / 64 % 64) % 256 = 0x80 + n / 64 % 64 := by omega
        have e2 : (0x80 + n % 64) % 256 = 0x80 + n % 64 := by omega
        rw [e0, e1, e2, if_neg (by omega), hl]
        simp only
        rw [if_neg (by omega), if_neg (by omega), if_neg (by omega), if_neg (by omega),
          if_pos (by omega)]
        congr 1
        omega
      · rw [if_neg h3]
        obtain ⟨lo, hi, hl, hlo, hhi⟩ := leadInfo_four n (by omega) (by omega)
        simp only [List.cons_append, List.nil_append, Raw.DecodeRuneInString, toByte_val,
          List.length_cons, List.length_nil, List.getD_cons_zero, List.getD_cons_succ]
        have e0 : (0xF0 + n / 262144) % 256 = 0xF0 + n / 262144 := by omega
        have e1 : (0x80 + n / 4096 % 64) % 256 = 0x80 + n / 4096 % 64 := by omega
        have e2 : (0x80 + n / 64 % 64) % 256 = 0x80 + n / 64 % 64 := by omega
        have e3 : (0x80 + n % 64) % 256 = 0x80 + n % 64 := by omega
        rw [e0, e1, e2, e3, if_neg (by omega), hl]
        simp only
        rw [if_neg (by omega), if_neg (by omega), if_neg (by omega), if_neg (by omega),
          if_neg (by omega), if_neg (by omega)]
        congr 1
        omega

theorem runeString_shape (n : Nat) :
    ∃ h t, Raw.runeString n = h :: t ∧ ¬ IsCont h ∧ ∀ b ∈ t, IsCont b := by
  unfold Raw.runeString IsCont
  by_cases h1 : n ≤ 0x7F
  · rw [if_pos h1]
    refine ⟨_, [], rfl, ?_, by simp⟩
    rw [toByte_val]
    omega
  · rw [if_neg h1]
    by_cases h2 : n ≤ 0x7FF
    · rw [if_pos h2]
      refine ⟨_, _, rfl, ?_, ?_⟩
      · rw [toByte_val]; omega
      · intro b hb
        simp only [List.mem_singleton] at hb
        subst hb
        rw [toByte_val]; omega
    · rw [if_neg h2]
      by_cases hs : n > 0x10FFFF ∨ (0xD800 ≤ n ∧ n ≤ 0xDFFF)
      · rw [if_pos hs]
        refine ⟨0xEF, [0xBF, 0xBD], rfl, ?_, ?_⟩
        · show ¬ (0x80 ≤ 0xEF ∧ 0xEF < 0xC0)
          omega
        · intro b hb
          simp only [List.mem_cons, List.mem_singleton, List.not_mem_nil, or_false] at hb
          rcases hb with rfl | rfl
          · show 0x80 ≤ 0xBF ∧ 0xBF < 0xC0
            omega
          · show 0x80 ≤ 0xBD ∧ 0xBD < 0xC0
            omega
      · rw [if_neg hs]
        by_cases h3 : n ≤ 0xFFFF
        · rw [if_pos h3]
          refine ⟨_, _, rfl, ?_, ?_⟩
          · rw [toByte_val]; omega
          · intro b hb
            simp only [List.mem_cons, List.mem_singleton, List.not_mem_nil, or_false] at hb
            rcases hb with rfl | rfl <;> rw [toByte_val] <;> omega
        · rw [if_neg h3]
          refine ⟨_, _, rfl, ?_, ?_⟩
          · rw [toByte_val]; omega
          · intro b hb
            simp only [List.mem_cons, List.mem_singleton, List.not_mem_nil, or_false] at hb
            rcases hb with rfl | rfl | rfl <;> rw [toByte_val] <;> omega

theorem Raw_replaceFrom_skip (old new t x : List Byte) :
    Raw.replaceFrom old new t.length (t ++ x) = Raw.replaceFrom old new 0 x := by
  induction t with
  | nil => rfl
  | cons b t ih =>
    rw [List.length_cons, List.cons_append, Raw.replaceFrom]
    exact ih

theorem Raw_rangeFrom_skip (t x : List Byte) :
    Raw.rangeFrom t.length (t ++ x) = Raw.rangeFrom 0 x := by
  induction t with
  | nil => rfl
  | cons b t ih =>
    rw [List.length_cons, List.cons_append, Raw.rangeFrom]
    exact ih

theorem Raw_replaceFrom_cont (h : Byte) (ot new : List Byte) (hh : ¬ IsCont h)
    (t x : List Byte) (ht : ∀ b ∈ t, IsCont b) :
    Raw.replaceFrom (h :: ot) new 0 (t ++ x) = t ++ Raw.replaceFrom (h :: ot) new 0 x := by
  induction t with
  | nil => rfl
  | cons b t ih =>
    have hb : IsCont b := ht b (List.mem_cons_self _ _)
    have hne : h ≠ b := fun e => hh (e ▸ hb)
    rw [List.cons_append, Raw.replaceFrom]
    have : (h :: ot).isPrefixOf (b :: (t ++ x)) = false := by
      simp [List.isPrefixOf, hne]
    rw [this]
    simp only [Bool.false_eq_true, if_false, List.cons_append]
    rw [ih (fun b hb => ht b (List.mem_cons_of_mem _ hb))]

/-- The byte-level replacement of the encoding of a code point in the encoding of a string
replaces the occurrences of that code point and nothing else. -/
theorem Raw_replaceFrom_utf8 (v : Char) (new : List Byte) (s : GoString) :
    Raw.replaceFrom (Raw.runeString v.toNat) new 0 (Raw.utf8 s)
      = (s.map (fun c => if c = v then new else Raw.runeString c.toNat)).flatten := by
  induction s with
  | nil => rfl
  | cons c s ih =>
    obtain ⟨hv, tv, hev, hhv, htv⟩ := runeString_shape v.toNat
    obtain ⟨hc, tc, hec, hhc, htc⟩ := runeString_shape c.toNat
    have hu : Raw.utf8 (c :: s) = hc :: (tc ++ Raw.utf8 s) := by
      simp [Raw.utf8, hec]
    rw [hu, Raw.replaceFrom]
    by_cases hcv : c = v
    · subst hcv
      rw [hec] at hev
      obtain ⟨rfl, rfl⟩ := List.cons.inj hev
      have hp : (Raw.runeString c.toNat).isPrefixOf (hc :: (tc ++ Raw.utf8 s)) = true := by
        rw [hec, List.isPrefixOf_iff_prefix]
        exact ⟨Raw.utf8 s, by simp⟩
      rw [hp, if_pos rfl, hec]
      simp only [List.length_cons, Nat.add_sub_cancel]
      rw [Raw_replaceFrom_skip, ← hec, ih]
      simp
    · have hp : (Raw.runeString v.toNat).isPrefixOf (hc :: (tc ++ Raw.utf8 s)) = false := by
        rw [Bool.eq_false_iff]
        intro hpre
        rw [List.isPrefixOf_iff_prefix] at hpre
        obtain ⟨r, hr⟩ := hpre
        have d1 := Decode_runeString v.toNat (Char_toNat_valid v) r
        have d2 := Decode_runeString c.toNat (Char_toNat_valid c) (Raw.utf8 s)
        rw [hr] at d1
        rw [hec, List.cons_append] at d2
        rw [d1] at d2
        have : v.toNat = c.toNat := (Prod.mk.inj d2).1
        apply hcv
        have hcc : Char.ofNat c.toNat = Char.ofNat v.toNat := by rw [this]
        rwa [Char.ofNat_toNat, Char.ofNat_toNat] at hcc
      rw [hp]
      simp only [Bool.false_eq_true, if_false]
      rw [hev, Raw_replaceFrom_cont hv tv new hhv tc _ htc, ← hev, ih]
      simp [hcv, hec]

theorem Raw_rangeRunes_utf8 (s : GoString) :
    Raw.rangeRunes (Raw.utf8 s) = s.map Char.toNat := by
  unfold Raw.rangeRunes
  induction s with
  | nil => rfl
  | cons c s ih =>
    obtain ⟨hc, tc, hec, -, -⟩ := runeString_shape c.toNat
    have hu : Raw.utf8 (c :: s) = hc :: (tc ++ Raw.utf8 s) := by
      simp [Raw.utf8, hec]
    have d := Decode_runeString c.toNat (Char_toNat_valid c) (Raw.utf8 s)
    rw [hec, List.cons_append] at d
    rw [hu, Raw.rangeFrom, d]
    simp only [List.length_cons, Nat.add_sub_cancel, List.map_cons]
    rw [Raw_rangeFrom_skip, ih]

theorem runeString_ne_nil (n : Nat) : Raw.runeString n ≠ [] := by
  obtain ⟨h, t, he, -, -⟩ := runeString_shape n
  rw [he]
  exact List.cons_ne_nil _ _

theorem Raw_ReplaceAll_utf8 (v : Char) (new : List Byte) (s : GoString) :
    Raw.ReplaceAll (Raw.utf8 s) (Raw.runeString v.toNat) new
      = (s.map (fun c => if c = v then new else Raw.runeString c.toNat)).flatten := by
  unfold Raw.ReplaceAll
  rw [if_neg (runeString_ne_nil _), Raw_replaceFrom_utf8]

theorem Raw_ReplaceAll_utf8_nil (v : Char) (s : GoString) :
    Raw.ReplaceAll (Raw.utf8 s) (Raw.runeString v.toNat) []
      = Raw.utf8 (s.filter (fun c => !(c == v))) := by
  rw [Raw_ReplaceAll_utf8]
  unfold Raw.utf8
  induction s with
  | nil => rfl
  | cons c s ih =>
    by_cases h : c = v
    · simp [h, ih]
    · simp [h, ih]

/-- On valid UTF-8 the byte-level `rmChr` is the deletion of the code points of `rm`. -/
theorem Raw_rmChr_utf8 (s rm : GoString) :
    Raw.rmChr (Raw.utf8 s) (Raw.utf8 rm) = Raw.utf8 (s.filter (fun c => !rm.contains c)) := by
  unfold Raw.rmChr
  rw [Raw_rangeRunes_utf8]
  induction rm generalizing s with
  | nil => simp
  | cons v vs ih =>
    rw [List.map_cons, List.foldl_cons, Raw_ReplaceAll_utf8_nil, ih, List.filter_filter]
    congr 2
    funext c
    by_cases h : c = v
    · simp [h]
    · simp [h, Bool.and_comm]

theorem utf8_append (a b : GoString) : Raw.utf8 (a ++ b) = Raw.utf8 a ++ Raw.utf8 b := by
  simp [Raw.utf8]

theorem utf8_ne_nil (s : GoString) (h : s ≠ []) : Raw.utf8 s ≠ [] := by
  cases s with
  | nil => exact absurd rfl h
  | cons c s =>
    obtain ⟨hc, tc, hec, -, -⟩ := runeString_shape c.toNat
    simp [Raw.utf8, hec]

theorem utf8_specReplaceSpaces (s replace : GoString) :
    Raw.utf8 (specReplaceSpaces s replace)
      = (s.map (fun c => if c = ' ' then Raw.utf8 replace else Raw.runeString c.toNat)).flatten := by
  unfold specReplaceSpaces
  induction s with
  | nil => rfl
  | cons c s ih =>
    by_cases h : c = ' '
    · subst h
      simp only [List.map_cons, List.flatten_cons, if_true, utf8_append]
      rw [ih]
    · simp only [h, List.map_cons, List.flatten_cons, if_false, utf8_append]
      rw [ih]
      simp [Raw.utf8]

/-- On valid UTF-8 the byte-level stem computation of `sprm` is the computation on code
points. -/
theorem Raw_sprmNewStem_utf8 (stem replace strip : GoString) :
    Raw.sprmNewStem (Raw.utf8 stem) (Raw.utf8 replace) (Raw.utf8 strip)
      = Raw.utf8 (specReplaceSpaces (specStrip stem strip) replace) := by
  have hsp : ([0x20] : List Byte) = Raw.runeString (' ' : Char).toNat := by decide
  unfold Raw.sprmNewStem
  by_cases h : strip = []
  · subst h
    have : specStrip stem [] = stem := by simp [specStrip]
    simp only [Raw.utf8, List.map_nil, List.flatten_nil, ne_eq, not_true_eq_false, if_false]
    rw [this, hsp]
    exact (Raw_ReplaceAll_utf8 ' ' _ stem).trans (utf8_specReplaceSpaces stem replace).symm
  · simp only [ne_eq, utf8_ne_nil strip h, not_false_eq_true, if_true]
    rw [Raw_rmChr_utf8, hsp]
    exact (Raw_ReplaceAll_utf8 ' ' _ _).trans (utf8_specReplaceSpaces _ replace).symm

/-! ## Removing characters: the claims -/

/-- C7: `rmChr` on strings that are not valid UTF-8. For `rm` the single byte `E9`,
`range` yields the rune U+FFFD, the same rune it yields at the last byte of `caf` followed
by `E9`, and `rmChr` returns that string unchanged: the byte is neither deleted as a
character of `rm` nor is the result free of the rune of `rm`. For `s` the bytes
`C3 C3 A9 A9` and `rm` the letter e-acute (`C3 A9`), `rmChr` returns `C3 A9`, a character of
`rm`. -/
theorem rmChr_invalid_utf8_not_deleted :
    Raw.rangeRunes [0xE9] = [Raw.RuneError] ∧
    Raw.rangeRunes (Raw.utf8 "caf".toList ++ [0xE9]) = [0x63, 0x61, 0x66, Raw.RuneError] ∧
    Raw.rmChr (Raw.utf8 "caf".toList ++ [0xE9]) [0xE9] = Raw.utf8 "caf".toList ++ [0xE9] ∧
    Raw.utf8 "é".toList = [0xC3, 0xA9] ∧
    Raw.rmChr [0xC3, 0xC3, 0xA9, 0xA9] (Raw.utf8 "é".toList) = Raw.utf8 "é".toList := by
  decide

/-- C6: the stem computation of `sprm` on a stem that is not valid UTF-8. For the stem
`caf` followed by the byte `E9` and the strip characters `E9`, the new stem is the stem
unchanged and not `caf`, the stem with the strip character deleted; with a space in the
stem and the replacement `-`, the space is replaced and the byte is still there. -/
theorem sprm_strip_invalid_utf8_not_deleted :
    Raw.sprmNewStem (Raw.utf8 "caf".toList ++ [0xE9]) [] [0xE9]
      = Raw.utf8 "caf".toList ++ [0xE9] ∧
    Raw.sprmNewStem (Raw.utf8 "caf".toList ++ [0xE9]) [] [0xE9] ≠ Raw.utf8 "caf".toList ∧
    Raw.sprmNewStem (Raw.utf8 "le caf".toList ++ [0xE9]) (Raw.utf8 "-".toList) [0xE9]
      = Raw.utf8 "le-caf".toList ++ [0xE9] := by
  decide

/-- The deletion by `rmChr` on valid UTF-8: for all strings of code points `s` and `rm`,
`rmChr` applied to their UTF-8 encodings returns the encoding of `s` with exactly the code
points of `rm` deleted, the others kept in their order; this is the encoding of what
`rmChr` on code points returns; and `rmChr("This is s", " s")` is `Thii`. -/
theorem rmChr_valid_utf8 (s rm : GoString) :
    Raw.rmChr (Raw.utf8 s) (Raw.utf8 rm)
      = Raw.utf8 (s.filter (fun c => !rm.contains c)) ∧
    Raw.rmChr (Raw.utf8 s) (Raw.utf8 rm) = Raw.utf8 (rmChr s rm) ∧
    Raw.rmChr (Raw.utf8 "This is s".toList) (Raw.utf8 " s".toList)
      = Raw.utf8 "Thii".toList := by
  refine ⟨Raw_rmChr_utf8 s rm, ?_, by decide⟩
  rw [Raw_rmChr_utf8, rmChr_eq_filter]

/-- The order of stripping and replacing on valid UTF-8: for all strings of code points
`stem`, `replace` and `strip`, the stem computation of `sprm` applied to their UTF-8
encodings returns the encoding of the stem with the code points of `strip` deleted first
and the spaces of what remains replaced by `replace` afterwards, which is the encoding
of what the computation on code points returns, in both versions of `sprm`; a space listed
in `strip` is deleted and never replaced; and `a (1)` with the replacement `""` and the
strip characters `()` becomes `a1`. -/
theorem sprm_strips_then_replaces_valid_utf8 (stem replace strip : GoString) :
    Raw.sprmNewStem (Raw.utf8 stem) (Raw.utf8 replace) (Raw.utf8 strip)
      = Raw.utf8 (specReplaceSpaces (specStrip stem strip) replace) ∧
    Raw.sprmNewStem (Raw.utf8 stem) (Raw.utf8 replace) (Raw.utf8 strip)
      = Raw.utf8 (sprmNewStem stem replace strip) ∧
    V001.sprmNewStem true false stem strip
      = specReplaceSpaces (specStrip stem strip) ['-'] ∧
    V001.sprmNewStem false true stem strip
      = specReplaceSpaces (specStrip stem strip) ['_'] ∧
    V001.sprmNewStem false false stem strip
      = specReplaceSpaces (specStrip stem strip) [] ∧
    (' ' ∈ strip →
      Raw.sprmNewStem (Raw.utf8 stem) (Raw.utf8 replace) (Raw.utf8 strip)
        = Raw.utf8 (specStrip stem strip)) ∧
    Raw.sprmNewStem (Raw.utf8 "a (1)".toList) [] (Raw.utf8 "()".toList)
      = Raw.utf8 "a1".toList := by
  have hv : ∀ r, strings.ReplaceAll (if strip ≠ [] then rmChr stem strip else stem) [' '] r
      = specReplaceSpaces (specStrip stem strip) r := fun r => sprmNewStem_eq stem r strip
  refine ⟨Raw_sprmNewStem_utf8 stem replace strip, ?_, ?_, ?_, ?_, ?_, by decide⟩
  · rw [Raw_sprmNewStem_utf8, sprmNewStem_eq]
  · simpa [V001.sprmNewStem] using hv ['-']
  · simpa [V001.sprmNewStem] using hv ['_']
  · simpa [V001.sprmNewStem] using hv []
  · intro h
    rw [Raw_sprmNewStem_utf8,
      specReplaceSpaces_of_no_space _ _ (specStrip_no_space stem strip h)]

/-- The witness of the order of stripping and replacing: the stem `a b` with the strip
characters `" ("` becomes `ab` whatever the replacement. -/
theorem sprm_strips_then_replaces_valid_utf8_witness :
    ' ' ∈ " (".toList ∧
    Raw.sprmNewStem (Raw.utf8 "a b".toList) (Raw.utf8 ['-']) (Raw.utf8 " (".toList)
      = Raw.utf8 (specStrip "a b".toList " (".toList) :=
  ⟨by decide,
   (sprm_strips_then_replaces_valid_utf8 "a b".toList ['-'] " (".toList).2.2.2.2.2.1
     (by decide)⟩

/-! ## Copying -/

/-- C1: `cpfile` on a directory. The source `my dir` exists and is not a regular file;
`cpfile` returns 0 with a nil error, and `sprm` in backup mode returns nil without having
created the destination. -/
theorem cpfile_not_regular_returns_nil :
    (cpfile Env.noFaults (FS.ofList [("my dir".toList, Node.other)])
        "my dir".toList "mydir".toList).1 = (0, none) ∧
    (sprm Env.noFaults (FS.ofList [("my dir".toList, Node.other)]) ⟨[], GoError.eof⟩
        "my dir".toList [] [] true false).1 = Outcome.returned none ∧
    (sprm Env.noFaults (FS.ofList [("my dir".toList, Node.other)]) ⟨[], GoError.eof⟩
        "my dir".toList [] [] true false).2 "mydir".toList = none := by
  decide

/-- C2: `cpfile` when the copy succeeds and closing the destination fails. The three
bytes of `my file.txt` are copied to `myfile.txt`, whose `Close` reports an error, and
`cpfile` returns 3 with a nil error. -/
theorem cpfile_close_error_lost :
    closeFailsEnv.closeErr "myfile.txt".toList = some (GoError.errno 5) ∧
    (cpfile closeFailsEnv (FS.ofList [("my file.txt".toList, Node.regular [1, 2, 3])])
        "my file.txt".toList "myfile.txt".toList).1 = (3, none) := by
  decide

/-- C3: `sprm` in backup mode on a file whose name is already clean. The new path of
`notes.txt` is `notes.txt` itself; the copy succeeds, returns 0 bytes for a source of 3
bytes and leaves the source empty. -/
theorem sprm_backup_clean_name_truncates :
    sprmNewPath "notes.txt".toList [] [] = "notes.txt".toList ∧
    (cpfile Env.noFaults (FS.ofList [("notes.txt".toList, Node.regular [1, 2, 3])])
        "notes.txt".toList "notes.txt".toList).1 = (0, none) ∧
    (sprm Env.noFaults (FS.ofList [("notes.txt".toList, Node.regular [1, 2, 3])])
        ⟨[], GoError.eof⟩ "notes.txt".toList [] [] true false).1 = Outcome.returned none ∧
    (sprm Env.noFaults (FS.ofList [("notes.txt".toList, Node.regular [1, 2, 3])])
        ⟨[], GoError.eof⟩ "notes.txt".toList [] [] true false).2 "notes.txt".toList
      = some (Node.regular []) := by
  decide

/-! ## The confirmation -/

theorem ReadString_ok (stdin : Stdin) (delim : Char) (line : GoString)
    (h : bufio.ReadString stdin delim = (line, none)) :
    ∃ c rest, line = c :: rest := by
  unfold bufio.ReadString at h
  split at h
  · simp at h
  · rename_i d r _
    simp only [Prod.mk.injEq, and_true] at h
    cases htw : stdin.data.takeWhile (fun c => c ≠ delim) with
    | nil => rw [htw] at h; exact ⟨d, [], by rw [← h]; rfl⟩
    | cons a as => rw [htw] at h; exact ⟨a, as ++ [d], by rw [← h]; rfl⟩

theorem yesno_of_read (stdin : Stdin) (prompt : GoString) (c : Char) (rest : GoString)
    (h : bufio.ReadString stdin '\n' = (c :: rest, none)) :
    yesno stdin prompt = Except.ok (decide (c = 'y' ∨ c = 'Y')) := by
  unfold yesno
  rw [h]
  simp only [strings.ToUpper, List.map_cons, List.get?_cons_zero]
  by_cases hc : c = 'y' ∨ c = 'Y'
  · rw [if_pos ((toUpperRune_eq_Y c).mpr hc)]; simp [hc]
  · rw [if_neg (fun e => hc ((toUpperRune_eq_Y c).mp e))]; simp [hc]

theorem ReadString_eof (stdin : Stdin) (delim : Char) (h : delim ∉ stdin.data) :
    bufio.ReadString stdin delim = (stdin.data, some stdin.atEnd) := by
  unfold bufio.ReadString
  have : stdin.data.dropWhile (fun c => c ≠ delim) = [] := by
    rw [List.dropWhile_eq_nil_iff]
    intro x hx
    have : x ≠ delim := fun e => h (e ▸ hx)
    simpa using this
  rw [this]

theorem sprm_declined (env : Env) (fs : FS) (stdin : Stdin) (opath replace strip : GoString)
    (backup : Bool) (h : yesno stdin [] = Except.ok false) :
    sprm env fs stdin opath replace strip backup true = (Outcome.returned none, fs) := by
  unfold sprm
  cases backup <;> simp [h]

theorem sprm_panicked (env : Env) (fs : FS) (stdin : Stdin) (opath replace strip : GoString)
    (backup : Bool) (v : PanicValue) (h : yesno stdin [] = Except.error v) :
    sprm env fs stdin opath replace strip backup true = (Outcome.panicked v, fs) := by
  unfold sprm
  cases backup <;> simp [h]

/-- C8: for every line read from standard input, `yesno` returns true if and only if the
first character of the line is `y` or `Y`; for every other line `yesno` returns false and
`sprm` in interactive mode returns nil and leaves the file system as it was, in backup
mode and in rename mode. -/
theorem yesno_true_iff_first_char (stdin : Stdin) (line : GoString)
    (hread : bufio.ReadString stdin '\n' = (line, none)) :
    (∀ prompt, yesno stdin prompt
      = Except.ok (decide (line.head? = some 'y' ∨ line.head? = some 'Y'))) ∧
    (¬ (line.head? = some 'y' ∨ line.head? = some 'Y') →
      ∀ (env : Env) (fs : FS) (opath replace strip : GoString) (backup : Bool),
        sprm env fs stdin opath replace strip backup true = (Outcome.returned none, fs)) := by
  obtain ⟨c, rest, rfl⟩ := ReadString_ok stdin '\n' line hread
  have hy : ∀ prompt, yesno stdin prompt
      = Except.ok (decide ((c :: rest).head? = some 'y' ∨ (c :: rest).head? = some 'Y')) := by
    intro prompt
    rw [yesno_of_read stdin prompt c rest hread]
    simp
  refine ⟨hy, ?_⟩
  intro hn env fs opath replace strip backup
  apply sprm_declined
  rw [hy]
  simp only [decide_eq_false hn]

/-- The witness of C8: the answers `n` and the empty line. -/
theorem yesno_true_iff_first_char_witness :
    (yesno ⟨"n\n".toList, GoError.eof⟩ [] = Except.ok false ∧
      ∀ (env : Env) (fs : FS) (opath replace strip : GoString) (backup : Bool),
        sprm env fs ⟨"n\n".toList, GoError.eof⟩ opath replace strip backup true
          = (Outcome.returned none, fs)) ∧
    yesno ⟨"\n".toList, GoError.eof⟩ [] = Except.ok false ∧
    yesno ⟨"Yes\n".toList, GoError.eof⟩ [] = Except.ok true :=
  ⟨⟨(yesno_true_iff_first_char ⟨"n\n".toList, GoError.eof⟩ "n\n".toList (by decide)).1 [],
    (yesno_true_iff_first_char ⟨"n\n".toList, GoError.eof⟩ "n\n".toList (by decide)).2
      (by decide)⟩,
   (yesno_true_iff_first_char ⟨"\n".toList, GoError.eof⟩ "\n".toList (by decide)).1 [],
   (yesno_true_iff_first_char ⟨"Yes\n".toList, GoError.eof⟩ "Yes\n".toList (by decide)).1 []⟩

/-- C9, as the claim states it, fails: with standard input at its end, `sprm` in
interactive mode does not return; it panics with the error of the read. -/
theorem sprm_end_of_input_panics :
    (sprm Env.noFaults (FS.ofList [("a b".toList, Node.regular [])]) ⟨[], GoError.eof⟩
        "a b".toList [] [] false true).1 = Outcome.panicked (PanicValue.error GoError.eof) ∧
    (sprm Env.noFaults (FS.ofList [("a b".toList, Node.regular [])]) ⟨[], GoError.eof⟩
        "a b".toList [] [] false true).1 ≠ Outcome.returned none := by
  decide

/-- C9, amended: in interactive mode, when standard input ends or fails before a newline
is read, `yesno` panics with the error of the read, so `sprm` does not return, and the
file system is left as it was; when the answer is the empty line, `sprm` returns nil and
the file system is left as it was. -/
theorem sprm_unreadable_answer (env : Env) (fs : FS) (stdin : Stdin)
    (opath replace strip : GoString) (backup : Bool) :
    ('\n' ∉ stdin.data →
      sprm env fs stdin opath replace strip backup true
        = (Outcome.panicked (PanicValue.error stdin.atEnd), fs)) ∧
    (stdin.data.head? = some '\n' →
      sprm env fs stdin opath replace strip backup true = (Outcome.returned none, fs)) := by
  constructor
  · intro h
    apply sprm_panicked
    unfold yesno
    rw [ReadString_eof stdin '\n' h]
  · intro h
    apply sprm_declined
    cases hd : stdin.data with
    | nil => rw [hd] at h; simp at h
    | cons c rest =>
      rw [hd] at h
      simp only [List.head?_cons, Option.some.injEq] at h
      subst h
      have hr : bufio.ReadString stdin '\n' = (['\n'], none) := by
        unfold bufio.ReadString
        rw [hd]
        simp
      rw [yesno_of_read stdin [] '\n' [] hr]
      rfl

/-- The witness of C9, amended: standard input closed, and the empty line. -/
theorem sprm_unreadable_answer_witness :
    sprm Env.noFaults (FS.ofList []) ⟨[], GoError.errno 9⟩ "a b".toList [] [] true true
      = (Outcome.panicked (PanicValue.error (GoError.errno 9)), FS.ofList []) ∧
    sprm Env.noFaults (FS.ofList []) ⟨"\n".toList, GoError.eof⟩ "a b".toList [] [] true true
      = (Outcome.returned none, FS.ofList []) :=
  ⟨(sprm_unreadable_answer Env.noFaults (FS.ofList []) ⟨[], GoError.errno 9⟩
      "a b".toList [] [] true).1 (by decide),
   (sprm_unreadable_answer Env.noFaults (FS.ofList []) ⟨"\n".toList, GoError.eof⟩
      "a b".toList [] [] true).2 (by decide)⟩

/-! ## The elements of a path -/

theorem notSlash_slash : path.notSlash '/' = false := by decide

theorem notSlash_of_ne {c : Char} (h : c ≠ '/') : path.notSlash c = true := by
  simp [path.notSlash, h]

theorem notSlash_eq_false {c : Char} (h : path.notSlash c = false) : c = '/' := by
  simpa [path.notSlash] using h

theorem takeWhile_cons_ne {c : Char} (h : c ≠ '/') (t : GoString) :
    (c :: t).takeWhile path.notSlash = c :: t.takeWhile path.notSlash := by
  rw [List.takeWhile_cons, if_pos (notSlash_of_ne h)]

theorem dropWhile_cons_ne {c : Char} (h : c ≠ '/') (t : GoString) :
    (c :: t).dropWhile path.notSlash = t.dropWhile path.notSlash := by
  rw [List.dropWhile_cons, if_pos (notSlash_of_ne h)]

theorem takeWhile_cons_slash (t : GoString) :
    ('/' :: t).takeWhile path.notSlash = [] := by
  rw [List.takeWhile_cons]; simp [notSlash_slash]

theorem dropWhile_cons_slash (t : GoString) :
    ('/' :: t).dropWhile path.notSlash = '/' :: t := by
  rw [List.dropWhile_cons]; simp [notSlash_slash]

theorem splitSlash_eq (s : GoString) :
    splitSlash s = s.takeWhile path.notSlash ::
      (if s.dropWhile path.notSlash = [] then []
       else splitSlash (s.dropWhile path.notSlash).tail) := by
  induction s with
  | nil => simp [splitSlash]
  | cons c t ih =>
    by_cases h : c = '/'
    · subst h
      rw [takeWhile_cons_slash, dropWhile_cons_slash]
      simp [splitSlash]
    · rw [splitSlash, if_neg h, ih, takeWhile_cons_ne h, dropWhile_cons_ne h]

theorem dropWhile_head_slash (s : GoString) (d : Char) (t : GoString)
    (h : s.dropWhile path.notSlash = d :: t) : d = '/' := by
  induction s with
  | nil => simp at h
  | cons c s ih =>
    by_cases hc : c = '/'
    · subst hc
      rw [dropWhile_cons_slash] at h
      simp at h
      exact h.1.symm
    · rw [dropWhile_cons_ne hc] at h
      exact ih h

theorem cleanStep_nil (rooted : Bool) (st : GoString × Nat) : cleanStep rooted st [] = st := by
  simp [cleanStep]

theorem cleanStep_dot (rooted : Bool) (st : GoString × Nat) :
    cleanStep rooted st ['.'] = st := by
  simp [cleanStep]

theorem cleanRun_nil (rooted : Bool) (st : GoString × Nat) : cleanRun rooted st [] = st := by
  simp [cleanRun, splitSlash, cleanStep_nil]

theorem cleanRun_slash (rooted : Bool) (st : GoString × Nat) (t : GoString) :
    cleanRun rooted st ('/' :: t) = cleanRun rooted st t := by
  simp [cleanRun, splitSlash, cleanStep_nil]

theorem cleanRun_takeWhile (rooted : Bool) (st : GoString × Nat) (s : GoString) :
    cleanRun rooted st s
      = cleanRun rooted (cleanStep rooted st (s.takeWhile path.notSlash))
          (s.dropWhile path.notSlash) := by
  conv_lhs => rw [cleanRun, splitSlash_eq, List.foldl_cons]
  cases hd : s.dropWhile path.notSlash with
  | nil => simp [cleanRun_nil]
  | cons d t =>
    have := dropWhile_head_slash s d t hd
    subst this
    rw [cleanRun_slash]
    simp [cleanRun]

theorem takeWhile_dot (t : GoString) (h : t = [] ∨ t.head? = some '/') :
    ('.' :: t).takeWhile path.notSlash = ['.'] ∧ ('.' :: t).dropWhile path.notSlash = t := by
  have hd : ('.' : Char) ≠ '/' := by decide
  rw [takeWhile_cons_ne hd, dropWhile_cons_ne hd]
  rcases h with rfl | h
  · simp
  · cases t with
    | nil => simp
    | cons d t2 =>
      simp at h
      subst h
      rw [takeWhile_cons_slash, dropWhile_cons_slash]
      simp

theorem takeWhile_eq_dot (c : Char) (t : GoString) (hc : c ≠ '/')
    (e : (c :: t).takeWhile path.notSlash = ['.']) : c = '.' ∧ (t = [] ∨ t.head? = some '/') := by
  rw [takeWhile_cons_ne hc] at e
  simp only [List.cons.injEq] at e
  refine ⟨e.1, ?_⟩
  cases t with
  | nil => exact Or.inl rfl
  | cons d t2 =>
    right
    by_cases hd : d = '/'
    · simp [hd]
    · rw [takeWhile_cons_ne hd] at e
      simp at e

theorem cleanLoop_eq_run (rooted : Bool) (fuel : Nat) :
    ∀ (rest out : GoString) (dotdot : Nat), rest.length ≤ fuel →
      path.cleanLoop rooted fuel rest out dotdot = (cleanRun rooted (out, dotdot) rest).1 := by
  induction fuel with
  | zero =>
    intro rest out dotdot h
    have : rest = [] := List.length_eq_zero.mp (Nat.le_zero.mp h)
    subst this
    simp [path.cleanLoop, cleanRun_nil]
  | succ fuel ih =>
    intro rest out dotdot h
    cases rest with
    | nil => simp [path.cleanLoop, cleanRun_nil]
    | cons c t =>
      have ht : t.length ≤ fuel := by simpa using h
      rw [path.cleanLoop]
      by_cases h1 : c = '/'
      · subst h1
        rw [if_pos rfl, cleanRun_slash]
        exact ih t out dotdot ht
      · rw [if_neg h1]
        rw [cleanRun_takeWhile]
        by_cases h2 : c = '.' ∧ (t = [] ∨ t.head? = some '/')
        · rw [if_pos h2]
          obtain ⟨rfl, h2⟩ := h2
          have htw := takeWhile_dot t h2
          rw [htw.1, htw.2, cleanStep_dot]
          exact ih t out dotdot ht
        · rw [if_neg h2]
          by_cases h3 : c = '.' ∧ t.head? = some '.' ∧ (t.tail = [] ∨ t.tail.head? = some '/')
          · rw [if_pos h3]
            obtain ⟨rfl, h3a, h3⟩ := h3
            cases t with
            | nil => simp at h3a
            | cons d t2 =>
              simp at h3a
              subst h3a
              have hd : ('.' : Char) ≠ '/' := by decide
              have htw := takeWhile_dot t2 h3
              have ht2 : t2.length ≤ fuel := by
                simp at ht; omega
              rw [takeWhile_cons_ne hd, dropWhile_cons_ne hd, htw.1, htw.2]
              simp only [List.tail_cons]
              by_cases hb : out.length > dotdot
              · rw [if_pos hb, ih _ _ _ ht2]
                simp [cleanStep, hb]
              · rw [if_neg hb]
                cases rooted with
                | false =>
                  simp only [Bool.not_false, if_true]
                  rw [ih _ _ _ ht2]
                  simp [cleanStep, hb]
                | true =>
                  simp only [Bool.not_true, Bool.false_eq_true, if_false]
                  rw [ih _ _ _ ht2]
                  simp [cleanStep, hb]
          · rw [if_neg h3]
            have hlen : ((c :: t).dropWhile path.notSlash).length ≤ fuel := by
              rw [dropWhile_cons_ne h1]
              exact Nat.le_trans (List.dropWhile_suffix _).length_le ht
            rw [ih _ _ _ hlen]
            have hne : (c :: t).takeWhile path.notSlash ≠ [] := by
              rw [takeWhile_cons_ne h1]; simp
            have hnd : (c :: t).takeWhile path.notSlash ≠ ['.'] :=
              fun e => h2 (takeWhile_eq_dot c t h1 e)
            have hndd : (c :: t).takeWhile path.notSlash ≠ ['.', '.'] := by
              intro e
              apply h3
              rw [takeWhile_cons_ne h1] at e
              simp only [List.cons.injEq] at e
              refine ⟨e.1, ?_⟩
              cases t with
              | nil => simp at e
              | cons d t2 =>
                by_cases hd : d = '/'
                · subst hd
                  rw [takeWhile_cons_slash] at e
                  simp at e
                · have e2 := takeWhile_eq_dot d t2 hd e.2
                  exact ⟨by simp [e2.1], by simpa using e2.2⟩
            have hstep : cleanStep rooted (out, dotdot) ((c :: t).takeWhile path.notSlash)
                = (pushSep rooted out ++ (c :: t).takeWhile path.notSlash, dotdot) := by
              unfold cleanStep
              rw [if_neg (by simp [hne, hnd]), if_neg hndd]
            rw [hstep]
            rfl

theorem Clean_rooted (t : GoString) :
    path.Clean ('/' :: t) = finish (cleanRun true (initState true) t).1 := by
  unfold path.Clean finish
  simp only [List.cons_ne_nil, if_false, List.head?_cons, if_true, List.tail_cons]
  rw [cleanLoop_eq_run true _ t ['/'] 1 (by simp)]
  rfl

theorem Clean_unrooted (p : GoString) (hp : p ≠ []) (hh : p.head? ≠ some '/') :
    path.Clean p = finish (cleanRun false (initState false) p).1 := by
  unfold path.Clean finish
  rw [if_neg hp]
  simp only [hh, if_false]
  rw [cleanLoop_eq_run false _ p [] 0 (Nat.le_refl _)]
  rfl

theorem splitSlash_ne_nil (s : GoString) : splitSlash s ≠ [] := by
  rw [splitSlash_eq]; simp

theorem splitSlash_append_slash (a b : GoString) :
    splitSlash (a ++ '/' :: b) = splitSlash a ++ splitSlash b := by
  induction a with
  | nil => simp [splitSlash]
  | cons c a ih =>
    by_cases h : c = '/'
    · subst h
      simp [splitSlash, ih]
    · rw [List.cons_append, splitSlash, if_neg h, ih, splitSlash, if_neg h]
      cases hs : splitSlash a with
      | nil => exact absurd hs (splitSlash_ne_nil a)
      | cons e es => simp

theorem splitSlash_noslash (e : GoString) (h : '/' ∉ e) : splitSlash e = [e] := by
  induction e with
  | nil => rfl
  | cons c e ih =>
    have hc : c ≠ '/' := fun e => h (by simp [e])
    have he : '/' ∉ e := fun e => h (by simp [e])
    rw [splitSlash, if_neg hc, ih he]

theorem cleanRun_append_slash (rooted : Bool) (st : GoString × Nat) (a b : GoString) :
    cleanRun rooted st (a ++ '/' :: b) = cleanRun rooted (cleanRun rooted st a) b := by
  simp [cleanRun, splitSlash_append_slash, List.foldl_append]

theorem cleanRun_noslash (rooted : Bool) (st : GoString × Nat) (e : GoString) (h : '/' ∉ e) :
    cleanRun rooted st e = cleanStep rooted st e := by
  simp [cleanRun, splitSlash_noslash e h]

theorem cleanStep_real (rooted : Bool) (st : GoString × Nat) (e : GoString) (h : IsReal e) :
    cleanStep rooted st e = (pushSep rooted st.1 ++ e, st.2) := by
  unfold cleanStep
  rw [if_neg (by simp [h.2.1, h.2.2.1]), if_neg h.2.2.2]

theorem mem_splitSlash_noslash (s e : GoString) (h : e ∈ splitSlash s) : '/' ∉ e := by
  induction s generalizing e with
  | nil =>
    simp [splitSlash] at h
    subst h
    simp
  | cons c t ih =>
    by_cases hc : c = '/'
    · subst hc
      simp [splitSlash] at h
      rcases h with rfl | h
      · simp
      · exact ih e h
    · rw [splitSlash, if_neg hc] at h
      cases hs : splitSlash t with
      | nil => exact absurd hs (splitSlash_ne_nil t)
      | cons e0 es =>
        rw [hs] at h
        simp at h
        rcases h with rfl | h
        · have := ih e0 (by rw [hs]; simp)
          intro hm
          simp at hm
          rcases hm with hm | hm
          · exact hc hm.symm
          · exact this hm
        · exact ih e (by rw [hs]; simp [h])

/-! ## Backtracking removes the last real element -/

theorem backtrack_through (P e : GoString) (dd : Nat) (he : '/' ∉ e) (hdd : dd ≤ P.length) :
    ∀ k, k < e.length →
      path.backtrack (P ++ e) dd (P.length + k) = path.backtrack (P ++ e) dd P.length := by
  intro k
  induction k with
  | zero => intro _; rfl
  | succ k ih =>
    intro hk
    have hk2 : k < e.length := by omega
    rw [← ih hk2]
    show path.backtrack (P ++ e) dd ((P.length + k) + 1) = _
    rw [path.backtrack]
    have hget : (P ++ e).get? (P.length + k + 1) = some (e.get ⟨k + 1, hk⟩) := by
      rw [List.get?_eq_getElem?, List.getElem?_append_right (by omega)]
      have : P.length + k + 1 - P.length = k + 1 := by omega
      rw [this, List.getElem?_eq_getElem hk]
      rfl
    have hne : e.get ⟨k + 1, hk⟩ ≠ '/' := fun h => he (h ▸ List.get_mem e (k + 1) hk)
    rw [if_pos]
    refine ⟨by omega, ?_⟩
    rw [hget]
    simpa using hne

theorem backtrackOut_push (rooted : Bool) (out e : GoString) (dd : Nat)
    (he : '/' ∉ e) (hne : e ≠ []) (hdd : dd ≤ out.length)
    (hsep : pushSep rooted out = out → out.length = dd) :
    path.backtrackOut (pushSep rooted out ++ e) dd = out := by
  have hlen : 0 < e.length := List.length_pos.mpr hne
  have hP : dd ≤ (pushSep rooted out).length := by
    unfold pushSep
    split
    · rw [List.length_append]; omega
    · exact hdd
  unfold path.backtrackOut
  have h1 : (pushSep rooted out ++ e).length - 1 = (pushSep rooted out).length + (e.length - 1) := by
    simp; omega
  rw [h1, backtrack_through _ e dd he hP (e.length - 1) (by omega)]
  by_cases hs : pushSep rooted out = out
  · have hd := hsep hs
    rw [hs]
    have : path.backtrack (out ++ e) dd out.length = out.length := by
      rw [hd]
      cases dd with
      | zero => rfl
      | succ d => rw [path.backtrack, if_neg (by omega)]
    rw [this]
    simp
  · have hs2 : pushSep rooted out = out ++ ['/'] := by
      unfold pushSep at hs ⊢
      split
      · rfl
      · rename_i h; rw [if_neg h] at hs; exact absurd rfl hs
    rw [hs2]
    have hl : (out ++ ['/']).length = out.length + 1 := by simp
    rw [hl, path.backtrack]
    have hget : (out ++ ['/'] ++ e).get? (out.length + 1) = some (e.get ⟨0, hlen⟩) := by
      rw [List.get?_eq_getElem?, List.getElem?_append_right (by simp)]
      simp only [List.length_append, List.length_singleton, Nat.sub_self]
      rw [List.getElem?_eq_getElem hlen]
      rfl
    have hne2 : e.get ⟨0, hlen⟩ ≠ '/' := fun h => he (h ▸ List.get_mem e 0 hlen)
    rw [if_pos ⟨by omega, by rw [hget]; simpa using hne2⟩]
    have : path.backtrack (out ++ ['/'] ++ e) dd out.length = out.length := by
      cases ho : out.length with
      | zero => rfl
      | succ n =>
        rw [path.backtrack, if_neg]
        intro hc
        apply hc.2
        rw [← ho, List.get?_eq_getElem?, List.append_assoc, List.getElem?_append_right (Nat.le_refl _)]
        simp
    rw [this]
    simp

theorem Clean_eq (p : GoString) (hp : p ≠ []) :
    path.Clean p
      = finish (cleanRun (rootedOf p) (initState (rootedOf p)) (stripRoot (rootedOf p) p)).1 := by
  cases p with
  | nil => exact absurd rfl hp
  | cons c t =>
    by_cases hc : c = '/'
    · subst hc
      rw [Clean_rooted]
      rfl
    · have hh : (c :: t).head? ≠ some '/' := by simpa using hc
      rw [Clean_unrooted _ hp hh]
      have : rootedOf (c :: t) = false := by simp [rootedOf, hc]
      rw [this]
      rfl

/-! ## The states of the loop -/

theorem pushSep_cases (rooted : Bool) (out : GoString) :
    (pushSep rooted out = out ++ ['/'] ∧
      ((rooted = true ∧ out.length ≠ 1) ∨ (rooted = false ∧ out.length ≠ 0))) ∨
    (pushSep rooted out = out ∧
      ((rooted = true ∧ out.length = 1) ∨ (rooted = false ∧ out.length = 0))) := by
  unfold pushSep
  cases rooted
  · by_cases h : out.length = 0
    · right; simp [h]
    · left; simp [h]
  · by_cases h : out.length = 1
    · right; simp [h]
    · left; simp [h]

theorem Reach_dd_le {rooted : Bool} {out : GoString} {dd : Nat} (h : Reach rooted out dd) :
    dd ≤ out.length := by
  induction h with
  | init out dd h0 =>
    cases rooted <;> simp [initState] at h0 <;> obtain ⟨rfl, rfl⟩ := h0 <;> simp
  | dotdot out dd out2 dd2 _ _ _ _ h2 _ => omega
  | real out dd e out2 _ _ h2 ih =>
    subst h2
    rcases pushSep_cases rooted out with ⟨h, _⟩ | ⟨h, _⟩ <;> rw [h] <;> simp <;> omega

theorem Reach_rooted {out : GoString} {dd : Nat} (h : Reach true out dd) :
    dd = 1 ∧ ∃ t, out = '/' :: t := by
  induction h with
  | init out dd h0 =>
    simp [initState] at h0
    obtain ⟨rfl, rfl⟩ := h0
    exact ⟨rfl, [], rfl⟩
  | dotdot out dd out2 dd2 hf _ _ _ _ _ => cases hf
  | real out dd e out2 _ _ h2 ih =>
    obtain ⟨hd, t, rfl⟩ := ih
    refine ⟨hd, ?_⟩
    subst h2
    rcases pushSep_cases true ('/' :: t) with ⟨h, _⟩ | ⟨h, _⟩ <;> rw [h] <;> simp

theorem Reach_unrooted {out : GoString} {dd : Nat} (h : Reach false out dd) :
    out.head? ≠ some '/' := by
  induction h with
  | init out dd h0 =>
    simp [initState] at h0
    obtain ⟨rfl, rfl⟩ := h0
    simp
  | dotdot out dd out2 dd2 _ _ _ h1 _ ih =>
    subst h1
    cases out with
    | nil => simp
    | cons c t => simpa using ih
  | real out dd e out2 _ he h2 ih =>
    subst h2
    cases out with
    | nil =>
      have : pushSep false [] = [] := by simp [pushSep]
      rw [this]
      cases e with
      | nil => exact absurd rfl he.2.1
      | cons c e =>
        have hc : c ≠ '/' := fun h => he.1 (by simp [h])
        simpa using hc
    | cons c t =>
      rcases pushSep_cases false (c :: t) with ⟨h, _⟩ | ⟨h, _⟩ <;> rw [h] <;> simpa using ih

theorem Reach_nosep {rooted : Bool} {out : GoString} {dd : Nat} (h : Reach rooted out dd)
    (hs : pushSep rooted out = out) : (out, dd) = initState rooted := by
  have hle := Reach_dd_le h
  rcases pushSep_cases rooted out with ⟨h1, _⟩ | ⟨_, h2⟩
  · rw [h1] at hs
    simp at hs
  · rcases h2 with ⟨rfl, hl⟩ | ⟨rfl, hl⟩
    · obtain ⟨rfl, t, rfl⟩ := Reach_rooted h
      simp at hl
      subst hl
      rfl
    · have : out = [] := List.length_eq_zero.mp hl
      subst this
      simp at hle
      subst hle
      rfl

theorem Reach_step {rooted : Bool} {out : GoString} {dd : Nat} (h : Reach rooted out dd)
    (e : GoString) (he : '/' ∉ e) :
    Reach rooted (cleanStep rooted (out, dd) e).1 (cleanStep rooted (out, dd) e).2 := by
  by_cases h1 : e = [] ∨ e = ['.']
  · unfold cleanStep
    rw [if_pos h1]
    exact h
  · by_cases h2 : e = ['.', '.']
    · unfold cleanStep
      rw [if_neg h1, if_pos h2]
      by_cases hb : out.length > dd
      · simp only [hb, if_true]
        cases h with
        | init _ _ h0 =>
          cases rooted <;> simp [initState] at h0 <;> obtain ⟨rfl, rfl⟩ := h0 <;> simp at hb
        | dotdot out0 dd0 _ _ _ _ _ _ hd => omega
        | real out0 _ e0 _ hr0 he0 ho =>
          subst ho
          rw [backtrackOut_push rooted out0 e0 dd he0.1 he0.2.1 (Reach_dd_le hr0)]
          · exact hr0
          · intro hs
            have := Reach_nosep hr0 hs
            cases rooted <;> simp [initState] at this <;> obtain ⟨rfl, rfl⟩ := this <;> rfl
      · simp only [hb, if_false]
        cases rooted with
        | false =>
          simp only [Bool.not_false, if_true]
          exact Reach.dotdot out dd _ _ rfl h (by have := Reach_dd_le h; omega) rfl rfl
        | true =>
          simp only [Bool.not_true, Bool.false_eq_true, if_false]
          exact h
    · have hr : IsReal e := ⟨he, fun h => h1 (Or.inl h), fun h => h1 (Or.inr h), h2⟩
      rw [cleanStep_real rooted _ e hr]
      exact Reach.real out dd e _ h hr rfl

theorem Reach_foldl {rooted : Bool} (es : List GoString) (hes : ∀ e ∈ es, '/' ∉ e) :
    ∀ (st : GoString × Nat), Reach rooted st.1 st.2 →
      Reach rooted (es.foldl (cleanStep rooted) st).1 (es.foldl (cleanStep rooted) st).2 := by
  induction es with
  | nil => intro st h; exact h
  | cons e es ih =>
    intro st h
    rw [List.foldl_cons]
    exact ih (fun x hx => hes x (List.mem_cons_of_mem _ hx)) _
      (Reach_step h e (hes e (List.mem_cons_self _ _)))

theorem Reach_run {rooted : Bool} (st : GoString × Nat) (h : Reach rooted st.1 st.2)
    (s : GoString) : Reach rooted (cleanRun rooted st s).1 (cleanRun rooted st s).2 :=
  Reach_foldl (splitSlash s) (fun e he => mem_splitSlash_noslash s e he) st h

theorem Reach_init (rooted : Bool) : Reach rooted (initState rooted).1 (initState rooted).2 :=
  Reach.init _ _ rfl

/-! ## Cleaning a cleaned buffer -/

theorem stripRoot_append (rooted : Bool) (a b : GoString) (ha : a ≠ []) :
    stripRoot rooted (a ++ b) = stripRoot rooted a ++ b := by
  cases a with
  | nil => exact absurd rfl ha
  | cons c a => cases rooted <;> simp [stripRoot]

theorem cleanRun_stripRoot_self {rooted : Bool} {out : GoString} {dd : Nat}
    (h : Reach rooted out dd) :
    cleanRun rooted (initState rooted) (stripRoot rooted out) = (out, dd) := by
  induction h with
  | init out dd h0 =>
    cases rooted <;> simp [initState] at h0 <;> obtain ⟨rfl, rfl⟩ := h0 <;>
      simp [stripRoot, cleanRun_nil, initState]
  | dotdot out dd out2 dd2 hf hr hl h1 h2 ih =>
    subst hf
    subst h2
    subst h1
    simp only [stripRoot, Bool.false_eq_true, if_false] at ih ⊢
    have hdd : ('/' : Char) ∉ ['.', '.'] := by decide
    by_cases ho : out.length > 0
    · rw [if_pos ho, List.append_assoc, List.singleton_append, cleanRun_append_slash, ih,
        cleanRun_noslash _ _ _ hdd]
      have hn : ¬ out.length > dd := by omega
      simp [cleanStep, hn, ho]
    · rw [if_neg ho]
      have : out = [] := List.length_eq_zero.mp (by omega)
      subst this
      simp only [List.length_nil] at hl
      subst hl
      rw [List.nil_append, cleanRun_noslash _ _ _ hdd]
      simp [cleanStep, initState]
  | real out dd e out2 hr he h2 ih =>
    subst h2
    rcases pushSep_cases rooted out with ⟨hs, hc⟩ | ⟨hs, _⟩
    · have hne : rooted = true → out ≠ [] := by
        intro hr2
        subst hr2
        obtain ⟨_, t, rfl⟩ := Reach_rooted hr
        simp
      have hstrip : stripRoot rooted (out ++ '/' :: e) = stripRoot rooted out ++ '/' :: e := by
        cases rooted with
        | false => rfl
        | true => exact stripRoot_append true out _ (hne rfl)
      rw [hs, List.append_assoc, List.singleton_append, hstrip, cleanRun_append_slash, ih,
        cleanRun_noslash _ _ _ he.1, cleanStep_real _ _ _ he, hs]
      simp
    · have h0 := Reach_nosep hr hs
      rw [hs]
      cases rooted with
      | false =>
        simp [initState] at h0
        obtain ⟨rfl, rfl⟩ := h0
        simp only [stripRoot, Bool.false_eq_true, if_false, List.nil_append]
        rw [cleanRun_noslash _ _ _ he.1, cleanStep_real _ _ _ he]
        simp [initState, pushSep]
      | true =>
        simp [initState] at h0
        obtain ⟨rfl, rfl⟩ := h0
        simp only [stripRoot, if_true, List.singleton_append, List.tail_cons]
        rw [cleanRun_noslash _ _ _ he.1, cleanStep_real _ _ _ he]
        simp [initState, pushSep]

theorem finish_append (x e : GoString) (he : e ≠ []) : finish (x ++ e) = x ++ e := by
  unfold finish
  rw [if_neg]
  simp [he]

theorem Clean_real (e : GoString) (he : IsReal e) : path.Clean e = e := by
  have hh : e.head? ≠ some '/' := by
    cases e with
    | nil => simp
    | cons c e =>
      have hc : c ≠ '/' := fun h => he.1 (by simp [h])
      simpa using hc
  rw [Clean_unrooted e he.2.1 hh, cleanRun_noslash _ _ _ he.1, cleanStep_real _ _ _ he]
  have : pushSep false (initState false).1 = [] := by simp [pushSep, initState]
  rw [this]
  exact finish_append [] e he.2.1

/-- Cleaning a path that begins with the separated buffer of a reachable state continues
the loop from that state. -/
theorem Clean_pushSep_append {rooted : Bool} {out : GoString} {dd : Nat}
    (h : Reach rooted out dd) (hne : pushSep rooted out ≠ []) (y : GoString) :
    path.Clean (pushSep rooted out ++ y) = finish (cleanRun rooted (out, dd) y).1 := by
  have hr : rootedOf (pushSep rooted out ++ y) = rooted := by
    cases rooted with
    | true =>
      obtain ⟨_, t, rfl⟩ := Reach_rooted h
      rcases pushSep_cases true ('/' :: t) with ⟨hs, _⟩ | ⟨hs, _⟩ <;> rw [hs] <;> simp [rootedOf]
    | false =>
      have hh := Reach_unrooted h
      cases out with
      | nil => exact absurd (by simp [pushSep]) hne
      | cons c t =>
        have hc : c ≠ '/' := by simpa using hh
        rcases pushSep_cases false (c :: t) with ⟨hs, _⟩ | ⟨hs, _⟩ <;> rw [hs] <;>
          simp [rootedOf, hc]
  rw [Clean_eq _ (by simp [hne]), hr]
  congr 2
  rcases pushSep_cases rooted out with ⟨hs, hc⟩ | ⟨hs, _⟩
  · have hne2 : rooted = true → out ≠ [] := by
      intro hr2
      subst hr2
      obtain ⟨_, t, rfl⟩ := Reach_rooted h
      simp
    have hstrip : stripRoot rooted (out ++ '/' :: y) = stripRoot rooted out ++ '/' :: y := by
      cases rooted with
      | false => rfl
      | true => exact stripRoot_append true out _ (hne2 rfl)
    rw [hs, List.append_assoc, List.singleton_append, hstrip, cleanRun_append_slash,
      cleanRun_stripRoot_self h]
  · have h0 := Reach_nosep h hs
    rw [hs] at hne ⊢
    cases rooted with
    | false =>
      simp [initState] at h0
      exact absurd h0.1 hne
    | true =>
      simp [initState] at h0
      obtain ⟨rfl, rfl⟩ := h0
      simp [stripRoot, initState]

/-- Cleaning a path that begins with a directory part continues the loop from the state
that the directory part leaves. -/
theorem Clean_dir_append (pre : GoString) (hpre : EndsSlash pre) (hne : pre ≠ [])
    (y : GoString) :
    path.Clean (pre ++ y)
      = finish (cleanRun (rootedOf pre)
          (cleanRun (rootedOf pre) (initState (rootedOf pre)) (stripRoot (rootedOf pre) pre)) y).1 := by
  rcases hpre with rfl | ⟨q, rfl⟩
  · exact absurd rfl hne
  · have hr : rootedOf (q ++ ['/'] ++ y) = rootedOf (q ++ ['/']) := by
      cases q <;> simp [rootedOf]
    rw [Clean_eq _ (by simp), hr]
    congr 2
    cases q with
    | nil =>
      have : rootedOf ([] ++ ['/']) = true := by simp [rootedOf]
      rw [this]
      simp [stripRoot, cleanRun_nil]
    | cons c q =>
      have h1 : stripRoot (rootedOf (c :: q ++ ['/'])) (c :: q ++ ['/'] ++ y)
          = stripRoot (rootedOf (c :: q ++ ['/'])) (c :: q) ++ '/' :: y := by
        rw [← stripRoot_append _ (c :: q) _ (by simp)]
        simp
      have h2 : stripRoot (rootedOf (c :: q ++ ['/'])) (c :: q ++ ['/'])
          = stripRoot (rootedOf (c :: q ++ ['/'])) (c :: q) ++ '/' :: [] := by
        rw [← stripRoot_append _ (c :: q) _ (by simp)]
      rw [h1, h2, cleanRun_append_slash, cleanRun_append_slash, cleanRun_nil]

/-! ## Splitting a path -/

theorem lastIndexByteBelow_bounds (s : GoString) (c : Char) (n : Nat) :
    -1 ≤ path.lastIndexByteBelow s c n ∧ path.lastIndexByteBelow s c n < n := by
  induction n with
  | zero => simp [path.lastIndexByteBelow]
  | succ n ih =>
    rw [path.lastIndexByteBelow]
    split
    · constructor <;> omega
    · constructor <;> omega

theorem lastIndexByteBelow_append (q r : GoString) (c : Char) (n : Nat) (hn : n ≤ q.length) :
    path.lastIndexByteBelow (q ++ r) c n = path.lastIndexByteBelow q c n := by
  induction n with
  | zero => rfl
  | succ n ih =>
    have hlt : n < q.length := hn
    rw [path.lastIndexByteBelow, path.lastIndexByteBelow, ih (by omega)]
    have : (q ++ r).get? n = q.get? n := by
      rw [List.get?_eq_getElem?, List.get?_eq_getElem?, List.getElem?_append_left hlt]
    rw [this]

theorem Split_snoc_slash (q : GoString) : path.Split (q ++ ['/']) = (q ++ ['/'], []) := by
  unfold path.Split path.LastIndexByteString
  have hl : (q ++ ['/']).length = q.length + 1 := by simp
  rw [hl, path.lastIndexByteBelow]
  have : (q ++ ['/']).get? q.length = some '/' := by
    rw [List.get?_eq_getElem?, List.getElem?_append_right (Nat.le_refl _)]
    simp
  rw [if_pos this]
  have h2 : ((q.length : Int) + 1).toNat = q.length + 1 := by omega
  simp only [h2]
  rw [← hl, List.take_length, List.drop_length]

theorem Split_snoc_ne (q : GoString) (c : Char) (hc : c ≠ '/') :
    path.Split (q ++ [c]) = ((path.Split q).1, (path.Split q).2 ++ [c]) := by
  unfold path.Split path.LastIndexByteString
  have hl : (q ++ [c]).length = q.length + 1 := by simp
  rw [hl, path.lastIndexByteBelow]
  have : (q ++ [c]).get? q.length ≠ some '/' := by
    rw [List.get?_eq_getElem?, List.getElem?_append_right (Nat.le_refl _)]
    simpa using hc
  rw [if_neg this, lastIndexByteBelow_append q [c] '/' q.length (Nat.le_refl _)]
  have hb := lastIndexByteBelow_bounds q '/' q.length
  have hk : (path.lastIndexByteBelow q '/' q.length + 1).toNat ≤ q.length := by omega
  simp only
  rw [List.take_append_of_le_length hk, List.drop_append_of_le_length hk]

theorem Split_append_noslash (a e : GoString) (he : '/' ∉ e) :
    path.Split (a ++ e) = ((path.Split a).1, (path.Split a).2 ++ e) := by
  induction e using List.reverseRecOn with
  | nil => simp
  | append_singleton e c ih =>
    have hc : c ≠ '/' := fun h => he (by simp [h])
    have he2 : '/' ∉ e := fun h => he (by simp [h])
    rw [← List.append_assoc, Split_snoc_ne _ c hc, ih he2]
    simp

theorem Split_endsSlash (pre : GoString) (h : EndsSlash pre) : path.Split pre = (pre, []) := by
  rcases h with rfl | ⟨q, rfl⟩
  · rfl
  · exact Split_snoc_slash q

theorem Split_dir_elem (pre e : GoString) (h : EndsSlash pre) (he : '/' ∉ e) :
    path.Split (pre ++ e) = (pre, e) := by
  rw [Split_append_noslash pre e he, Split_endsSlash pre h]
  simp

theorem Split_spec (p : GoString) :
    EndsSlash (path.Split p).1 ∧ '/' ∉ (path.Split p).2 ∧
      (path.Split p).1 ++ (path.Split p).2 = p := by
  induction p using List.reverseRecOn with
  | nil => exact ⟨Or.inl rfl, by simp [path.Split, path.LastIndexByteString], rfl⟩
  | append_singleton q c ih =>
    by_cases hc : c = '/'
    · subst hc
      rw [Split_snoc_slash]
      exact ⟨Or.inr ⟨q, rfl⟩, by simp, by simp⟩
    · rw [Split_snoc_ne q c hc]
      refine ⟨ih.1, ?_, ?_⟩
      · intro hm
        simp only [List.mem_append, List.mem_singleton] at hm
        rcases hm with hm | hm
        · exact ih.2.1 hm
        · exact hc hm.symm
      · simp only
        rw [← List.append_assoc, ih.2.2]

theorem EndsSlash_append_slash (a d : GoString) (hd : EndsSlash d) :
    EndsSlash (a ++ '/' :: d) := by
  rcases hd with rfl | ⟨q, rfl⟩
  · exact Or.inr ⟨a, rfl⟩
  · exact Or.inr ⟨a ++ '/' :: q, by simp⟩

/-! ## The extension -/

theorem extBelow_suffix (p : GoString) (n : Nat) : path.extBelow p n <:+ p := by
  induction n with
  | zero => exact List.nil_suffix
  | succ n ih =>
    rw [path.extBelow]
    split
    · exact List.nil_suffix
    · split
      · exact List.drop_suffix n p
      · exact ih

theorem extBelow_through (pre suf : GoString) (hd : '.' ∉ suf) (hs : '/' ∉ suf) :
    ∀ k, k ≤ suf.length →
      path.extBelow (pre ++ '.' :: suf) (pre.length + 1 + k) = '.' :: suf := by
  intro k
  induction k with
  | zero =>
    intro _
    show path.extBelow (pre ++ '.' :: suf) (pre.length + 1) = _
    rw [path.extBelow]
    have : (pre ++ '.' :: suf).get? pre.length = some '.' := by
      rw [List.get?_eq_getElem?, List.getElem?_append_right (Nat.le_refl _)]
      simp
    rw [this, if_neg (by decide), if_pos rfl, List.drop_left]
  | succ k ih =>
    intro hk
    have hk2 : k < suf.length := hk
    show path.extBelow (pre ++ '.' :: suf) ((pre.length + 1 + k) + 1) = _
    rw [path.extBelow]
    have hget : (pre ++ '.' :: suf).get? (pre.length + 1 + k) = some (suf.get ⟨k, hk2⟩) := by
      rw [List.get?_eq_getElem?, List.getElem?_append_right (by omega)]
      have : pre.length + 1 + k - pre.length = k + 1 := by omega
      rw [this, List.getElem?_cons_succ, List.getElem?_eq_getElem hk2]
      rfl
    have h1 : suf.get ⟨k, hk2⟩ ≠ '/' := fun h => hs (h ▸ List.get_mem suf k hk2)
    have h2 : suf.get ⟨k, hk2⟩ ≠ '.' := fun h => hd (h ▸ List.get_mem suf k hk2)
    rw [hget, if_neg (by simpa using h1), if_neg (by simpa using h2)]
    exact ih (by omega)

theorem Ext_last_dot (pre suf : GoString) (hd : '.' ∉ suf) (hs : '/' ∉ suf) :
    path.Ext (pre ++ '.' :: suf) = '.' :: suf := by
  unfold path.Ext
  have : (pre ++ '.' :: suf).length = pre.length + 1 + suf.length := by simp; omega
  rw [this]
  exact extBelow_through pre suf hd hs suf.length (Nat.le_refl _)

theorem ContainsAny_dot (fn : GoString) : strings.ContainsAny fn ['.'] = true ↔ '.' ∈ fn := by
  unfold strings.ContainsAny
  simp

theorem sprmExt_last_dot (pre suf : GoString) (hd : '.' ∉ suf) (hs : '/' ∉ suf) :
    sprmExt (pre ++ '.' :: suf) = '.' :: suf := by
  unfold sprmExt
  rw [if_pos ((ContainsAny_dot _).mpr (by simp)), Ext_last_dot pre suf hd hs]

theorem TrimSuffix_append (a b : GoString) : strings.TrimSuffix (a ++ b) b = a := by
  unfold strings.TrimSuffix strings.HasSuffix
  rw [if_pos (by simp)]
  simp

theorem sprmStem_last_dot (pre suf : GoString) (hd : '.' ∉ suf) (hs : '/' ∉ suf) :
    sprmStem (pre ++ '.' :: suf) = pre := by
  unfold sprmStem
  rw [if_pos ((ContainsAny_dot _).mpr (by simp)), Ext_last_dot pre suf hd hs, TrimSuffix_append]

theorem sprmStem_append_sprmExt (fn : GoString) : sprmStem fn ++ sprmExt fn = fn := by
  unfold sprmStem sprmExt
  split
  · obtain ⟨t, ht⟩ := extBelow_suffix fn fn.length
    unfold path.Ext
    generalize path.extBelow fn fn.length = x at ht
    subst ht
    rw [TrimSuffix_append]
  · simp

theorem sprmExt_suffix (fn : GoString) : sprmExt fn <:+ fn :=
  ⟨sprmStem fn, sprmStem_append_sprmExt fn⟩

theorem exists_last_dot (fn : GoString) (h : '.' ∈ fn) :
    ∃ pre suf, fn = pre ++ '.' :: suf ∧ '.' ∉ suf := by
  induction fn with
  | nil => simp at h
  | cons c t ih =>
    by_cases ht : '.' ∈ t
    · obtain ⟨pre, suf, rfl, hs⟩ := ih ht
      exact ⟨c :: pre, suf, rfl, hs⟩
    · have hc : c = '.' := by
        simp only [List.mem_cons] at h
        rcases h with h | h
        · exact h.symm
        · exact absurd h ht
      subst hc
      exact ⟨[], t, rfl, ht⟩

/-! ## The new path -/

theorem Join_two (dir name : GoString) (hn : name ≠ []) :
    path.Join [dir, name] = path.Clean (if dir = [] then name else dir ++ '/' :: name) := by
  unfold path.Join path.joinBuf
  have hsize : ([dir, name].map List.length).sum ≠ 0 := by
    have h0 : 0 < name.length := List.length_pos.mpr hn
    have h1 : ([dir, name].map List.length).sum = dir.length + name.length := by simp
    omega
  simp only [hsize, if_false, List.foldl_cons, List.foldl_nil, List.length_nil]
  congr 1
  cases dir with
  | nil => simp [hn]
  | cons c d => simp

theorem Clean_suffix_real (pre e : GoString) (hpre : EndsSlash pre) (he : IsReal e) :
    e <:+ path.Clean (pre ++ e) := by
  by_cases hp : pre = []
  · subst hp
    rw [List.nil_append, Clean_real e he]
  · rw [Clean_dir_append pre hpre hp e, cleanRun_noslash _ _ _ he.1, cleanStep_real _ _ _ he,
      finish_append _ _ he.2.1]
    exact List.suffix_append _ _

/-- The new path of a real new base name `name` in the directory part `dir`: the
separated buffer of a state of the loop of `path.Clean`, followed by the name; the buffer
of that state is what cleaning `dir` gives. -/
theorem Join_dir_real (dir name : GoString) (hdir : EndsSlash dir) (hn : IsReal name) :
    ∃ (rooted : Bool) (out : GoString) (dd : Nat), Reach rooted out dd ∧
      path.Join [dir, name] = pushSep rooted out ++ name ∧ path.Clean dir = finish out := by
  rw [Join_two dir name hn.2.1]
  by_cases hd : dir = []
  · subst hd
    refine ⟨false, [], 0, Reach.init _ _ rfl, ?_, rfl⟩
    rw [if_pos rfl, Clean_real name hn]
    simp [pushSep]
  · rw [if_neg hd]
    refine ⟨rootedOf dir,
      (cleanRun (rootedOf dir) (initState (rootedOf dir)) (stripRoot (rootedOf dir) dir)).1,
      (cleanRun (rootedOf dir) (initState (rootedOf dir)) (stripRoot (rootedOf dir) dir)).2,
      Reach_run _ (Reach_init _) _, ?_, ?_⟩
    · rw [Clean_dir_append dir hdir hd ('/' :: name), cleanRun_slash,
        cleanRun_noslash _ _ _ hn.1, cleanStep_real _ _ _ hn, finish_append _ _ hn.2.1]
    · have := Clean_dir_append dir hdir hd []
      rw [List.append_nil, cleanRun_nil] at this
      exact this

theorem EndsSlash_pushSep {rooted : Bool} {out : GoString} {dd : Nat}
    (h : Reach rooted out dd) : EndsSlash (pushSep rooted out) := by
  rcases pushSep_cases rooted out with ⟨hs, _⟩ | ⟨hs, _⟩
  · rw [hs]
    exact Or.inr ⟨out, rfl⟩
  · have h0 := Reach_nosep h hs
    rw [hs]
    cases rooted with
    | false =>
      simp [initState] at h0
      exact Or.inl h0.1
    | true =>
      simp [initState] at h0
      exact Or.inr ⟨[], by simp [h0.1]⟩

theorem Clean_pushSep {rooted : Bool} {out : GoString} {dd : Nat} (h : Reach rooted out dd) :
    path.Clean (pushSep rooted out) = finish out := by
  by_cases hne : pushSep rooted out = []
  · have ho : out = [] := by
      rcases pushSep_cases rooted out with ⟨hs, _⟩ | ⟨hs, _⟩
      · rw [hs] at hne
        simp at hne
      · rw [hs] at hne
        exact hne
    rw [hne, ho]
    rfl
  · have := Clean_pushSep_append h hne []
    rw [List.append_nil, cleanRun_nil] at this
    exact this

theorem Join_pushSep {rooted : Bool} {out : GoString} {dd : Nat} (h : Reach rooted out dd)
    (name : GoString) (hn : IsReal name) :
    path.Join [pushSep rooted out, name] = pushSep rooted out ++ name := by
  rw [Join_two _ name hn.2.1]
  by_cases hne : pushSep rooted out = []
  · rw [if_pos hne, hne, Clean_real name hn]
    rfl
  · rw [if_neg hne, Clean_pushSep_append h hne ('/' :: name), cleanRun_slash,
      cleanRun_noslash _ _ _ hn.1, cleanStep_real _ _ _ hn, finish_append _ _ hn.2.1]

theorem sprmNewStem_clean (stem replace strip : GoString) (hsp : ' ' ∉ stem)
    (hst : ∀ c ∈ stem, c ∉ strip) : sprmNewStem stem replace strip = stem := by
  rw [sprmNewStem_eq]
  have : specStrip stem strip = stem := by
    unfold specStrip
    rw [List.filter_eq_self]
    intro c hc
    simpa using hst c hc
  rw [this, specReplaceSpaces_of_no_space stem replace hsp]

/-! ## The claims about the new path -/

/-- C4, as the claim states it, fails: the base name `..` of `a/b/..` contains a dot and
its suffix from the last dot is `.`, and the new path is `a`, which does not end with a
dot; the base name ` .` of `a/ .` has the same suffix, its new base name is `.`, and the
new path is `a` again. -/
theorem sprm_extension_dropped :
    ('.' ∈ (path.Split "a/b/..".toList).2 ∧
      path.Ext (path.Split "a/b/..".toList).2 = ".".toList ∧
      sprmNewPath "a/b/..".toList [] [] = "a".toList ∧
      ¬ (".".toList <:+ sprmNewPath "a/b/..".toList [] [])) ∧
    ('.' ∈ (path.Split "a/ .".toList).2 ∧
      path.Ext (path.Split "a/ .".toList).2 = ".".toList ∧
      sprmNewName (path.Split "a/ .".toList).2 [] [] = ".".toList ∧
      sprmNewPath "a/ .".toList [] [] = "a".toList ∧
      ¬ (".".toList <:+ sprmNewPath "a/ .".toList [] [])) := by
  decide

/-- C4, amended: for every original path whose base name is `stem ++ "." ++ suf` with no
dot in `suf`, and for every replacement and strip characters, the extension that `sprm`
saves is `"." ++ suf`, the new base name is the transformed stem followed by it, and the
new path ends with it, provided the last element of the new base name is neither `.` nor
`..`. -/
theorem sprm_keeps_extension (opath replace strip stem suf : GoString)
    (hfn : (path.Split opath).2 = stem ++ '.' :: suf) (hsuf : '.' ∉ suf)
    (h1 : (path.Split (sprmNewName (path.Split opath).2 replace strip)).2 ≠ ['.'])
    (h2 : (path.Split (sprmNewName (path.Split opath).2 replace strip)).2 ≠ ['.', '.']) :
    sprmExt (path.Split opath).2 = '.' :: suf ∧
    sprmNewName (path.Split opath).2 replace strip
      = sprmNewStem stem replace strip ++ '.' :: suf ∧
    ('.' :: suf) <:+ sprmNewPath opath replace strip := by
  obtain ⟨hdir, hns, -⟩ := Split_spec opath
  have hss : '/' ∉ suf := by
    intro h
    apply hns
    rw [hfn]
    simp [h]
  have hext : sprmExt (path.Split opath).2 = '.' :: suf := by
    rw [hfn]; exact sprmExt_last_dot stem suf hsuf hss
  have hstem : sprmStem (path.Split opath).2 = stem := by
    rw [hfn]; exact sprmStem_last_dot stem suf hsuf hss
  have hname : sprmNewName (path.Split opath).2 replace strip
      = sprmNewStem stem replace strip ++ '.' :: suf := by
    unfold sprmNewName
    rw [hext, hstem]
  refine ⟨hext, hname, ?_⟩
  have hes : '/' ∉ '.' :: suf := by
    intro h
    simp only [List.mem_cons] at h
    rcases h with h | h
    · exact absurd h (by decide)
    · exact hss h
  have hsplit := Split_append_noslash (sprmNewStem stem replace strip) ('.' :: suf) hes
  rw [← hname] at hsplit
  obtain ⟨hd2, he2, hjoin2⟩ := Split_spec (sprmNewStem stem replace strip)
  rw [hsplit] at h1 h2
  simp only at h1 h2
  have hreal : IsReal ((path.Split (sprmNewStem stem replace strip)).2 ++ '.' :: suf) := by
    refine ⟨?_, by simp, h1, h2⟩
    intro h
    rcases List.mem_append.mp h with h | h
    · exact he2 h
    · exact hes h
  have hN : sprmNewName (path.Split opath).2 replace strip
      = (path.Split (sprmNewStem stem replace strip)).1
        ++ ((path.Split (sprmNewStem stem replace strip)).2 ++ '.' :: suf) := by
    rw [hname, ← List.append_assoc, hjoin2]
  have hne : sprmNewName (path.Split opath).2 replace strip ≠ [] := by
    rw [hname]; simp
  have hsuff : ('.' :: suf) <:+ (path.Split (sprmNewStem stem replace strip)).2 ++ '.' :: suf :=
    List.suffix_append _ _
  unfold sprmNewPath
  simp only
  rw [Join_two _ _ hne]
  by_cases hd : (path.Split opath).1 = []
  · rw [if_pos hd, hN]
    exact hsuff.trans (Clean_suffix_real _ _ hd2 hreal)
  · rw [if_neg hd, hN]
    have : (path.Split opath).1 ++ '/' ::
          ((path.Split (sprmNewStem stem replace strip)).1
            ++ ((path.Split (sprmNewStem stem replace strip)).2 ++ '.' :: suf))
        = ((path.Split opath).1 ++ '/' :: (path.Split (sprmNewStem stem replace strip)).1)
            ++ ((path.Split (sprmNewStem stem replace strip)).2 ++ '.' :: suf) := by
      simp
    rw [this]
    exact hsuff.trans (Clean_suffix_real _ _ (EndsSlash_append_slash _ _ hd2) hreal)

/-- The witness of C4, amended: `/tmp/My File.TXT` with the replacement `-`. -/
theorem sprm_keeps_extension_witness :
    sprmExt (path.Split "/tmp/My File.TXT".toList).2 = ".TXT".toList ∧
    sprmNewName (path.Split "/tmp/My File.TXT".toList).2 ['-'] []
      = sprmNewStem "My File".toList ['-'] [] ++ ".TXT".toList ∧
    ".TXT".toList <:+ sprmNewPath "/tmp/My File.TXT".toList ['-'] [] :=
  sprm_keeps_extension "/tmp/My File.TXT".toList ['-'] [] "My File".toList "TXT".toList
    (by decide) (by decide) (by decide) (by decide)

/-- C5, as the claim states it, fails: the base names of `a b/` (empty), of `a b/.` (`.`,
whose stem is empty) and of `a b/c/..` (`..`, whose stem is `.`) are clean, and the new
path of the three is `a b`, whose new path is `ab`. -/
theorem sprm_transform_not_idempotent :
    (' ' ∉ sprmStem (path.Split "a b/".toList).2 ∧
      sprmNewPath "a b/".toList [] [] = "a b".toList ∧
      sprmNewPath (sprmNewPath "a b/".toList [] []) [] [] = "ab".toList ∧
      sprmNewPath (sprmNewPath "a b/".toList [] []) [] [] ≠ sprmNewPath "a b/".toList [] []) ∧
    (' ' ∉ sprmStem (path.Split "a b/.".toList).2 ∧
      sprmNewPath "a b/.".toList [] [] = "a b".toList ∧
      sprmNewPath (sprmNewPath "a b/.".toList [] []) [] []
        ≠ sprmNewPath "a b/.".toList [] []) ∧
    (' ' ∉ sprmStem (path.Split "a b/c/..".toList).2 ∧
      sprmNewPath "a b/c/..".toList [] [] = "a b".toList ∧
      sprmNewPath (sprmNewPath "a b/c/..".toList [] []) [] []
        ≠ sprmNewPath "a b/c/..".toList [] []) := by
  decide

/-- C5, amended: for every replacement (in particular `""`, `-` and `_`), every strip
characters and every original path whose base name is not empty, not `.` and not `..` and
is already clean (its stem contains no space and no strip character), the new path
computation is idempotent. -/
theorem sprm_transform_idempotent (p replace strip : GoString)
    (hne : (path.Split p).2 ≠ []) (hdot : (path.Split p).2 ≠ ['.'])
    (hdotdot : (path.Split p).2 ≠ ['.', '.'])
    (hsp : ' ' ∉ sprmStem (path.Split p).2)
    (hst : ∀ c ∈ sprmStem (path.Split p).2, c ∉ strip) :
    sprmNewPath (sprmNewPath p replace strip) replace strip = sprmNewPath p replace strip := by
  obtain ⟨hdir, hns, -⟩ := Split_spec p
  have hreal : IsReal (path.Split p).2 := ⟨hns, hne, hdot, hdotdot⟩
  have hname : sprmNewName (path.Split p).2 replace strip = (path.Split p).2 := by
    unfold sprmNewName
    rw [sprmNewStem_clean _ replace strip hsp hst, sprmStem_append_sprmExt]
  have hnew : sprmNewPath p replace strip
      = path.Join [(path.Split p).1, (path.Split p).2] := by
    unfold sprmNewPath
    simp only
    rw [hname]
  obtain ⟨rooted, out, dd, hr, hj, -⟩ := Join_dir_real _ _ hdir hreal
  rw [hnew, hj]
  have hsplit := Split_dir_elem (pushSep rooted out) (path.Split p).2 (EndsSlash_pushSep hr) hns
  unfold sprmNewPath
  simp only
  rw [hsplit]
  simp only
  rw [hname, Join_pushSep hr _ hreal]

/-- The witness of C5, amended: `docs//notes.txt` with the replacement `_` and the strip
characters `()`. -/
theorem sprm_transform_idempotent_witness :
    sprmNewPath (sprmNewPath "docs//notes.txt".toList ['_'] "()".toList) ['_'] "()".toList
      = sprmNewPath "docs//notes.txt".toList ['_'] "()".toList :=
  sprm_transform_idempotent "docs//notes.txt".toList ['_'] "()".toList
    (by decide) (by decide) (by decide) (by decide) (by decide)

/-- C10, as the claim states it, fails. For `a/b/..` the new base name is `..` and the new
path is `a`: its last element is not the new base name and it does not lie in `a/b/`. For
`a/ .` the new base name is `.`, and for `a/ ` it is empty: the new path is `a`. For
`my file` with the replacement `/` the new base name is `my/file` and the last element of
the new path is `file`. For `./my file` the new path is `myfile`, whose directory part is
empty and not `./`. -/
theorem sprm_newpath_not_in_directory :
    (sprmNewName (path.Split "a/b/..".toList).2 [] [] = "..".toList ∧
      sprmNewPath "a/b/..".toList [] [] = "a".toList ∧
      (path.Split (sprmNewPath "a/b/..".toList [] [])).2
        ≠ sprmNewName (path.Split "a/b/..".toList).2 [] [] ∧
      path.Clean (path.Split (sprmNewPath "a/b/..".toList [] [])).1
        ≠ path.Clean (path.Split "a/b/..".toList).1) ∧
    (sprmNewName (path.Split "a/ .".toList).2 [] [] = ".".toList ∧
      sprmNewPath "a/ .".toList [] [] = "a".toList ∧
      (path.Split (sprmNewPath "a/ .".toList [] [])).2
        ≠ sprmNewName (path.Split "a/ .".toList).2 [] []) ∧
    (sprmNewName (path.Split "a/ ".toList).2 [] [] = [] ∧
      sprmNewPath "a/ ".toList [] [] = "a".toList ∧
      (path.Split (sprmNewPath "a/ ".toList [] [])).2
        ≠ sprmNewName (path.Split "a/ ".toList).2 [] []) ∧
    (sprmNewName (path.Split "my file".toList).2 ['/'] [] = "my/file".toList ∧
      sprmNewPath "my file".toList ['/'] [] = "my/file".toList ∧
      (path.Split (sprmNewPath "my file".toList ['/'] [])).2
        ≠ sprmNewName (path.Split "my file".toList).2 ['/'] []) ∧
    (sprmNewPath "./my file".toList [] [] = "myfile".toList ∧
      (path.Split (sprmNewPath "./my file".toList [] [])).1
        ≠ (path.Split "./my file".toList).1) := by
  decide

/-- C10, amended: for every original path, replacement and strip characters, the new path
is `path.Join` of the directory part of the original path and the new base name, which
is the transformed stem followed by the extension; when the new base name is a real path
element (not empty, not `.`, not `..`, without a slash), the last element of the new path
is exactly the new base name, the new path is its directory part followed by the new base
name, and its directory part cleans to the same directory as the directory part of the
original path. -/
theorem sprm_newpath_in_directory (opath replace strip : GoString)
    (hreal : IsReal (sprmNewName (path.Split opath).2 replace strip)) :
    sprmNewPath opath replace strip
      = path.Join [(path.Split opath).1, sprmNewName (path.Split opath).2 replace strip] ∧
    sprmNewName (path.Split opath).2 replace strip
      = sprmNewStem (sprmStem (path.Split opath).2) replace strip
        ++ sprmExt (path.Split opath).2 ∧
    (path.Split (sprmNewPath opath replace strip)).2
      = sprmNewName (path.Split opath).2 replace strip ∧
    sprmNewPath opath replace strip
      = (path.Split (sprmNewPath opath replace strip)).1
        ++ sprmNewName (path.Split opath).2 replace strip ∧
    path.Clean (path.Split (sprmNewPath opath replace strip)).1
      = path.Clean (path.Split opath).1 := by
  obtain ⟨hdir, -, -⟩ := Split_spec opath
  have hnew : sprmNewPath opath replace strip
      = path.Join [(path.Split opath).1, sprmNewName (path.Split opath).2 replace strip] := rfl
  obtain ⟨rooted, out, dd, hr, hj, hc⟩ := Join_dir_real _ _ hdir hreal
  have hsplit := Split_dir_elem (pushSep rooted out) _ (EndsSlash_pushSep hr) hreal.1
  refine ⟨hnew, rfl, ?_, ?_, ?_⟩
  · rw [hnew, hj, hsplit]
  · rw [hnew, hj, hsplit]
  · rw [hnew, hj, hsplit, hc]
    exact Clean_pushSep hr

/-- The witness of C10, amended: `docs//My File.TXT` with the replacement `-`. -/
theorem sprm_newpath_in_directory_witness :
    (path.Split (sprmNewPath "docs//My File.TXT".toList ['-'] [])).2
      = sprmNewName (path.Split "docs//My File.TXT".toList).2 ['-'] [] ∧
    path.Clean (path.Split (sprmNewPath "docs//My File.TXT".toList ['-'] [])).1
      = path.Clean (path.Split "docs//My File.TXT".toList).1 :=
  ⟨(sprm_newpath_in_directory "docs//My File.TXT".toList ['-'] [] (by decide)).2.2.1,
   (sprm_newpath_in_directory "docs//My File.TXT".toList ['-'] [] (by decide)).2.2.2.2⟩

end Sprm
